import Mathlib

/-!
Verification of the `vitamin-0xff/web-crawler` repository.

The development shallowly embeds the two crawler variants found in the
repository: the `url_extractor` package (`crawler.py`, `extractor.py`,
`http.py`) and the self-contained `main.py` script.  Pure helpers
(`matchsubdomain`, link extraction, URL canonicalization) become Lean
functions; the concurrent crawl loop of `crawler.py` becomes a small-step
transition relation over an explicit configuration, with one atomic step per
uninterrupted (await-free) region of the Python coroutine code.
-/

namespace WebCrawler

/-! ## Character-level string utilities -/

def slashC : Char := Char.ofNat 47

def colonC : Char := Char.ofNat 58

def hashC : Char := Char.ofNat 35

def qmarkC : Char := Char.ofNat 63

def dquoteC : Char := Char.ofNat 34

def squoteC : Char := Char.ofNat 39

def btickC : Char := Char.ofNat 96

/-- `listHasPre pre s` is true iff `pre` is a prefix of `s`. -/
def listHasPre : List Char → List Char → Bool
  | [], _ => true
  | _ :: _, [] => false
  | p :: ps, c :: cs => p = c && listHasPre ps cs

/-- True iff `pat` occurs as a contiguous substring of `s`
(the model of Python's `in` on strings). -/
def containsSub (pat s : List Char) : Bool :=
  s.tails.any (fun t => listHasPre pat t)

/-- Python `hay` string containment: `needle in hay`. -/
def strContains (hay needle : String) : Bool :=
  containsSub needle.toList hay.toList

/-- Python `s.endswith(suffix)`. -/
def strEndsWith (s suffix : String) : Bool :=
  decide (suffix.toList <:+ s.toList)

/-- Split a character list at the first occurrence of `c`.  Returns the
part before `c` and, when `c` occurs, the part after it. -/
def splitFirst (c : Char) : List Char → List Char × Option (List Char)
  | [] => ([], none)
  | x :: xs =>
    if x = c then ([], some xs)
    else
      let r := splitFirst c xs
      (x :: r.1, r.2)

/-! ## URL parsing and canonicalization

The Python code uses `urllib.parse.urlparse` and `urllib.parse.urljoin` and
then rebuilds `parsed.scheme + "://" + parsed.netloc + parsed.path`
(dropping query and fragment).  `urlparse`/`urljoin` are standard-library
collaborators of the repository, modelled here for the URL shapes the
crawler handles. -/

structure UrlParts where
  scheme : List Char
  netloc : List Char
  path : List Char
  query : Option (List Char)
  frag : Option (List Char)
  deriving Repr, DecidableEq

/-- Modelled from the Python standard library: `urllib.parse.urlparse`.
The fragment is split off at the first unquoted hash, the query at the
first question mark, the scheme before the first colon (the stdlib's
scheme-charset validation is omitted), then `//netloc` up to the next
slash and the rest as path. -/
def parseChars (s : List Char) : UrlParts :=
  let pf := splitFirst hashC s
  let pq := splitFirst qmarkC pf.1
  let bq := pq.1
  let pc := splitFirst colonC bq
  match pc.2 with
  | none => ⟨[], [], bq, pq.2, pf.2⟩
  | some rest =>
    if listHasPre [slashC, slashC] rest then
      let after := rest.drop 2
      ⟨pc.1, after.takeWhile (fun c => c ≠ slashC),
        after.dropWhile (fun c => c ≠ slashC), pq.2, pf.2⟩
    else
      ⟨pc.1, [], rest, pq.2, pf.2⟩

def parseUrl (s : String) : UrlParts := parseChars s.toList

/-- `parsed.scheme + "://" + parsed.netloc + parsed.path`, the
canonical (query- and fragment-free) form rebuilt by the extractor. -/
def canonChars (s : List Char) : List Char :=
  let p := parseChars s
  p.scheme ++ colonC :: slashC :: slashC :: (p.netloc ++ p.path)

def canonicalStr (s : String) : String :=
  ⟨canonChars s.toList⟩

/-- `urlparse(u).netloc` as used by the crawler's scope checks. -/
def netlocStr (s : String) : String :=
  ⟨(parseUrl s).netloc⟩

/-- From `crawler.py` / `main.py`:
`matchsubdomain(base_netloc, link_netloc) = link_netloc.endswith(base_netloc)`. -/
def matchsubdomain (base_netloc link_netloc : String) : Bool :=
  strEndsWith link_netloc base_netloc

/-- Directory part of a path: everything up to and including the last
slash, defaulting to a single slash (stdlib relative-reference merge). -/
def dirOf (p : List Char) : List Char :=
  let d := (p.reverse.dropWhile (fun c => c ≠ slashC)).reverse
  if d = [] then [slashC] else d

/-- Modelled from the Python standard library: `urllib.parse.urljoin`, for
the reference shapes the crawler meets (absolute URLs containing `://`,
protocol-relative, root-relative, fragment-only, query-only and plain
relative references; dot-segment normalization is not modelled). -/
def urljoin (base url : String) : String :=
  let b := parseChars base.toList
  let u := url.toList
  if u = [] then base
  else if containsSub [colonC, slashC, slashC] u then url
  else if listHasPre [slashC, slashC] u then ⟨b.scheme ++ colonC :: u⟩
  else if listHasPre [slashC] u then
    ⟨b.scheme ++ colonC :: slashC :: slashC :: (b.netloc ++ u)⟩
  else if listHasPre [hashC] u then ⟨(splitFirst hashC base.toList).1 ++ u⟩
  else if listHasPre [qmarkC] u then
    ⟨b.scheme ++ colonC :: slashC :: slashC :: (b.netloc ++ b.path ++ u)⟩
  else
    ⟨b.scheme ++ colonC :: slashC :: slashC :: (b.netloc ++ dirOf b.path ++ u)⟩

/-! ## Script-content extraction (`extract_links_from_script`)

`extractor.py` / `main.py` apply three regular expressions with
`re.findall` over raw script text:
  1. `fetch\s*\(\s*[quote]([^quotes]+)[quote]\s*\)`
  2. `axios\.get\s*\(\s*[quote]([^quotes]+)[quote]\s*\)`
  3. `[quote](https?://[^quotes]+|(?:/[^quotes]+))[quote]`
where the quote class is the single quote, the backtick and the double
quote.  The matchers below implement exactly these patterns;
`scanAll` implements `re.findall`'s leftmost non-overlapping scan. -/

def isQuoteC (c : Char) : Bool :=
  c = squoteC || c = btickC || c = dquoteC

/-- Python's `\s` class: space, tab, newline, carriage return,
vertical tab, form feed. -/
def isWsC (c : Char) : Bool :=
  c = Char.ofNat 32 || c = Char.ofNat 9 || c = Char.ofNat 10 ||
  c = Char.ofNat 13 || c = Char.ofNat 11 || c = Char.ofNat 12

def skipWs (s : List Char) : List Char := s.dropWhile isWsC

def dropPre (pre s : List Char) : Option (List Char) :=
  if listHasPre pre s then some (s.drop pre.length) else none

/-- A quoted string literal: an opening quote, one or more non-quote
characters (the capture), a closing quote (the character class lets the
closing quote differ from the opening one).  Returns the capture and the
text after the closing quote. -/
def matchQuoted (s : List Char) : Option (List Char × List Char) :=
  match s with
  | [] => none
  | q :: rest =>
    if isQuoteC q then
      let cap := rest.takeWhile (fun c => ¬ isQuoteC c)
      let rem := rest.dropWhile (fun c => ¬ isQuoteC c)
      match rem with
      | [] => none
      | _ :: rem2 => if cap = [] then none else some (cap, rem2)
    else none

/-- Patterns 1 and 2: a literal call name, `\s*`, an opening parenthesis,
`\s*`, a quoted literal, `\s*`, a closing parenthesis. -/
def matchCallAt (name : List Char) (s : List Char) :
    Option (List Char × List Char) :=
  match dropPre name s with
  | none => none
  | some s1 =>
    match skipWs s1 with
    | [] => none
    | c :: s3 =>
      if c = Char.ofNat 40 then
        match matchQuoted (skipWs s3) with
        | none => none
        | some (cap, s5) =>
          match skipWs s5 with
          | [] => none
          | c2 :: s7 => if c2 = Char.ofNat 41 then some (cap, s7) else none
      else none

/-- Pattern 3's alternation: `https?://` followed by at least one
character, or a slash followed by at least one character. -/
def urlLitShape (cap : List Char) : Bool :=
  (listHasPre [Char.ofNat 104, Char.ofNat 116, Char.ofNat 116, Char.ofNat 112,
      colonC, slashC, slashC] cap &&
    decide (7 < cap.length)) ||
  (listHasPre [Char.ofNat 104, Char.ofNat 116, Char.ofNat 116, Char.ofNat 112,
      Char.ofNat 115, colonC, slashC, slashC] cap &&
    decide (8 < cap.length)) ||
  (listHasPre [slashC] cap && decide (1 < cap.length))

/-- Pattern 3: a quoted literal whose capture is an absolute http(s) URL
or begins with a slash. -/
def matchUrlLitAt (s : List Char) : Option (List Char × List Char) :=
  match matchQuoted s with
  | none => none
  | some (cap, rest) => if urlLitShape cap then some (cap, rest) else none

/-- `re.findall`: scan left to right; on a match, resume after the whole
match, otherwise advance one character.  The fuel argument (instantiated
with the text length, which each step strictly decreases faster than)
only serves termination. -/
def scanAll (m : List Char → Option (List Char × List Char)) :
    Nat → List Char → List (List Char)
  | 0, _ => []
  | _ + 1, [] => []
  | fuel + 1, c :: cs =>
    match m (c :: cs) with
    | some (cap, rest) => cap :: scanAll m fuel rest
    | none => scanAll m fuel cs

def findAll (m : List Char → Option (List Char × List Char))
    (s : List Char) : List (List Char) :=
  scanAll m s.length s

/-- `urljoin` then rebuild scheme://netloc/path, as both extractors do
for every produced link. -/
def canonJoin (base raw : String) : String :=
  canonicalStr (urljoin base raw)

def fetchName : List Char :=
  [Char.ofNat 102, Char.ofNat 101, Char.ofNat 116, Char.ofNat 99, Char.ofNat 104]

def axiosGetName : List Char :=
  [Char.ofNat 97, Char.ofNat 120, Char.ofNat 105, Char.ofNat 111, Char.ofNat 115,
   Char.ofNat 46, Char.ofNat 103, Char.ofNat 101, Char.ofNat 116]

/-- From `url_extractor/extractor.py` and `main.py`:
`extract_links_from_script(script_content, base_url)`. -/
def extract_links_from_script (script_content base_url : String) :
    Finset String :=
  ((findAll (matchCallAt fetchName) script_content.toList ++
    findAll (matchCallAt axiosGetName) script_content.toList ++
    findAll matchUrlLitAt script_content.toList).map
      (fun cap => canonJoin base_url (String.mk cap))).toFinset

/-! ## The DOM-like document model

The spec scopes out HTML tokenization: the core consumes a DOM-like node
list.  A node records what the two extractors inspect: the `href` of
anchor elements when declared, and the `src` attribute and literal text
body of script elements. -/

inductive Node
  | anchor (href : Option String)
  | scriptTag (src : Option String) (body : Option String)
  | other
  deriving Repr, DecidableEq

def anchorLinks (doc : List Node) (base_url : String) : List String :=
  doc.filterMap (fun n =>
    match n with
    | Node.anchor (some href) => some (canonJoin base_url href)
    | _ => none)

/-- From `url_extractor/extractor.py` (lines 5-25):
collects anchor `href`s and script `src`s; inline script bodies are NOT
examined (its `extract_links_from_script` is never called). -/
def Extractor.extract_links_from_html (doc : List Node) (base_url : String) :
    Finset String :=
  (anchorLinks doc base_url).toFinset ∪
  (doc.filterMap (fun n =>
    match n with
    | Node.scriptTag (some src) _ => some (canonJoin base_url src)
    | _ => none)).toFinset

/-- The union of `extract_links_from_script` over the literal text bodies
of the document's script elements. -/
def inlineScriptLinks (doc : List Node) (base_url : String) : Finset String :=
  match doc with
  | [] => ∅
  | Node.scriptTag _ (some body) :: rest =>
    extract_links_from_script body base_url ∪ inlineScriptLinks rest base_url
  | _ :: rest => inlineScriptLinks rest base_url

/-- From `main.py` (lines 36-55): collects anchor `href`s, then applies
`extract_links_from_script` to the literal text body of every script
element that has one (script `src` attributes are not collected). -/
def Main.extract_links_from_html (doc : List Node) (base_url : String) :
    Finset String :=
  (anchorLinks doc base_url).toFinset ∪ inlineScriptLinks doc base_url

/-! ## `http.py`: the retry decorator

`retry(attempts=3, delay=1, backoff=2)` wraps `get_page_content_async`.
The wrapper runs a loop of `attempts` tries; a try that raises one of the
transient exception types sleeps for `delay` seconds and doubles `delay`;
after the loop one further (unprotected) call is made, commented
`# Last attempt` in the source.  `delay` is declared `nonlocal`: it is
the decorator's closure variable, shared by every invocation of the
wrapped function and never reset. -/

/-- Outcome of one underlying call of the wrapped coroutine: a value, or
one of the transient exceptions the decorator catches
(`ClientConnectorError`, `ClientResponseError`, `asyncio.TimeoutError`). -/
inductive Attempt (α : Type)
  | ok (a : α)
  | transient
  deriving Repr, DecidableEq

structure RetryResult (α : Type) where
  /-- `none` means the final call raised and the exception propagates to
  the caller. -/
  result : Option α
  /-- Arguments of the `asyncio.sleep(delay)` calls, in order. -/
  sleeps : List Nat
  /-- Number of times the wrapped function was called. -/
  calls : Nat
  /-- Value of the shared `delay` closure variable afterwards. -/
  finalDelay : Nat
  deriving Repr, DecidableEq

/-- From `http.py` lines 9-21: the body of `wrapper`.  `f n` gives the
outcome of the `n`-th underlying call (0-based); the first argument is
the number of loop iterations still to run. -/
def retryLoop {α : Type} (f : Nat → Attempt α) (backoff : Nat) :
    Nat → Nat → Nat → List Nat → RetryResult α
  | 0, callIdx, delay, sleeps =>
    match f callIdx with
    | Attempt.ok a => ⟨some a, sleeps.reverse, callIdx + 1, delay⟩
    | Attempt.transient => ⟨none, sleeps.reverse, callIdx + 1, delay⟩
  | k + 1, callIdx, delay, sleeps =>
    match f callIdx with
    | Attempt.ok a => ⟨some a, sleeps.reverse, callIdx + 1, delay⟩
    | Attempt.transient =>
      retryLoop f backoff k (callIdx + 1) (delay * backoff) (delay :: sleeps)

/-- One invocation of the decorated `get_page_content_async`
(`attempts=3`, `backoff=2`), given the current value of the shared
`delay` variable (initially `1`, carried over between invocations). -/
def get_page_content_invocation {α : Type} (f : Nat → Attempt α)
    (delay : Nat) : RetryResult α :=
  retryLoop f 2 3 0 delay []

/-! ## `main.py`'s worker: acknowledgement accounting

`main.py` has its own worker (lines 79-119) without the `try/finally` of
`crawler.py`: the stop-token branch `break`s before any `task_done`, and
its `get_page_content_async` catches `aiohttp.ClientError` (returning
`(None, None)`) but not `asyncio.TimeoutError`, which propagates and
skips the final `task_done`. -/

/-- Fetch outcomes of `main.py`'s (undecorated) `get_page_content_async`. -/
inductive MainFetch
  | ok (content : Option (List Node)) (ctype : String)
  | clientError
  | timeoutRaise
  deriving Repr

/-- How one iteration of `main.py`'s worker loop ends. -/
inductive MainOutcome
  | looped
  | broke
  | raised
  deriving Repr, DecidableEq

structure MainState where
  visited : Finset String
  pages_crawled_count : Nat
  deriving DecidableEq

/-- From `main.py` lines 83-119: one iteration of the worker loop on a
dequeued item.  Returns the new `CrawlingState`, the set of links put on
the queue, the number of `queue.task_done()` calls executed during the
iteration, and how the iteration ended. -/
def Main.workerProcess (base_netloc : String) (max_pages : Int)
    (st : MainState) (item : Option String) (fetch : MainFetch) :
    MainState × Finset String × Nat × MainOutcome :=
  match item with
  | none => (st, ∅, 0, MainOutcome.broke)
  | some u =>
    if u ∈ st.visited then (st, ∅, 1, MainOutcome.looped)
    else if max_pages ≠ -1 ∧ max_pages ≤ (st.pages_crawled_count : Int) then
      (st, ∅, 1, MainOutcome.looped)
    else if ¬ matchsubdomain base_netloc (netlocStr u) then
      (st, ∅, 1, MainOutcome.looped)
    else
      let st2 : MainState := ⟨insert u st.visited, st.pages_crawled_count + 1⟩
      match fetch with
      | MainFetch.timeoutRaise => (st2, ∅, 0, MainOutcome.raised)
      | MainFetch.clientError => (st2, ∅, 1, MainOutcome.looped)
      | MainFetch.ok content ctype =>
        let links : Finset String :=
          match content with
          | none => ∅
          | some doc =>
            if strContains ctype "html" then
              Main.extract_links_from_html doc u
            else ∅
        let submitted :=
          if max_pages ≠ -1 ∧ max_pages ≤ (st2.pages_crawled_count : Int) then
            (∅ : Finset String)
          else
            links.filter (fun l =>
              l ∉ st2.visited ∧ matchsubdomain base_netloc (netlocStr l))
        (st2, submitted, 1, MainOutcome.looped)

/-! ## `crawler.py`: the concurrent crawl as a transition system

`crawl_async` runs `num_workers` copies of `worker` over one
`asyncio.Queue` and shared `visited` / `js_links` / `pages_crawled_count`
state.  Under asyncio's cooperative scheduling, control changes hands
only at suspension points; in `worker` these are `queue.get()` and the
awaited network fetch (a `put` on an unbounded queue and the awaited but
await-free extractor coroutine do not yield).  One worker iteration is
therefore two atomic blocks: dequeue + classify (possibly admission and
fetch start), and, once the fetch returns, extraction + child submission
+ `task_done`.  The relation below has exactly these atomic steps,
interleaved arbitrarily across workers.  A fetch that raises terminates
the worker coroutine (`worker` has no `except` clause), modelled by the
`dead` state; `task_done` still runs (`finally`). -/

/-- Result of the awaited `get_page_content_async(session, url)` call:
either the exception surviving the retry wrapper, or a body (possibly
falsy, i.e. empty, modelled `none`) with its `Content-Type` value. -/
inductive FetchOutcome
  | raises
  | ok (content : Option (List Node)) (ctype : String)
  deriving DecidableEq

/-- What a fetched URL contributes to the submission loop:
`extract_links_from_html` when the body is truthy and the content type
contains `"html"`, nothing otherwise (lines 43-46 of `crawler.py`). -/
def effectiveLinks (web : String → FetchOutcome) (u : String) : Finset String :=
  match web u with
  | FetchOutcome.raises => ∅
  | FetchOutcome.ok none _ => ∅
  | FetchOutcome.ok (some doc) ctype =>
    if strContains ctype "html" then Extractor.extract_links_from_html doc u
    else ∅

/-- `max_pages != -1 and pages_crawled_count[0] >= max_pages`. -/
def budgetReached (max_pages : Int) (count : Nat) : Bool :=
  decide (max_pages ≠ -1 ∧ max_pages ≤ (count : Int))

/-- The per-link test of the submission loop (line 49):
`link not in visited and link not in js_links and matchsubdomain(...)`. -/
def eligibleChild (visited js : Finset String) (base_netloc l : String) : Bool :=
  decide (l ∉ visited) && decide (l ∉ js) &&
    matchsubdomain base_netloc (netlocStr l)

inductive WState
  | idle
  | fetching (url : String)
  | dead
  | stopped
  deriving Repr, DecidableEq

structure Cfg where
  /-- The `asyncio.Queue` contents, head = next to be dequeued. -/
  queue : List String
  workers : List WState
  visited : Finset String
  js_links : Finset String
  pages_crawled_count : Nat
  /-- Log of URLs passed to `get_page_content_async`, in order. -/
  fetched : List String
  /-- Log of URLs returned by `queue.get()`, in order. -/
  dequeued : List String
  /-- Number of `queue.put` calls so far. -/
  puts : Nat
  /-- Number of `queue.task_done` calls so far. -/
  acks : Nat
  deriving DecidableEq

/-- `crawl_async` seeds the queue with `start_url` as given (no
canonicalization) and spawns `num_workers` idle workers. -/
def initCfg (start_url : String) (num_workers : Nat) : Cfg :=
  ⟨[start_url], List.replicate num_workers WState.idle, ∅, ∅, 0, [], [], 1, 0⟩

/-- One atomic step of the worker pool (`crawler.py`, lines 18-54). -/
inductive Step (web : String → FetchOutcome) (base_netloc : String)
    (max_pages : Int) : Cfg → Cfg → Prop
  /-- Dequeued URL already in `visited` or `js_links`: `continue`
  (`task_done` via `finally`). -/
  | dequeue_dedup (c : Cfg) (i : Nat) (u : String) (rest : List String)
      (hq : c.queue = u :: rest)
      (hw : c.workers[i]? = some WState.idle)
      (hmem : u ∈ c.visited ∨ u ∈ c.js_links) :
      Step web base_netloc max_pages c
        { c with queue := rest, dequeued := c.dequeued ++ [u],
                 acks := c.acks + 1 }
  /-- Budget already exhausted: `continue`. -/
  | dequeue_budget (c : Cfg) (i : Nat) (u : String) (rest : List String)
      (hq : c.queue = u :: rest)
      (hw : c.workers[i]? = some WState.idle)
      (hmem : ¬ (u ∈ c.visited ∨ u ∈ c.js_links))
      (hb : budgetReached max_pages c.pages_crawled_count = true) :
      Step web base_netloc max_pages c
        { c with queue := rest, dequeued := c.dequeued ++ [u],
                 acks := c.acks + 1 }
  /-- Host fails the suffix test: `continue`. -/
  | dequeue_scope (c : Cfg) (i : Nat) (u : String) (rest : List String)
      (hq : c.queue = u :: rest)
      (hw : c.workers[i]? = some WState.idle)
      (hmem : ¬ (u ∈ c.visited ∨ u ∈ c.js_links))
      (hb : budgetReached max_pages c.pages_crawled_count = false)
      (hs : matchsubdomain base_netloc (netlocStr u) = false) :
      Step web base_netloc max_pages c
        { c with queue := rest, dequeued := c.dequeued ++ [u],
                 acks := c.acks + 1 }
  /-- URL string ends in `.js`: record in `js_links`, no fetch. -/
  | dequeue_js (c : Cfg) (i : Nat) (u : String) (rest : List String)
      (hq : c.queue = u :: rest)
      (hw : c.workers[i]? = some WState.idle)
      (hmem : ¬ (u ∈ c.visited ∨ u ∈ c.js_links))
      (hb : budgetReached max_pages c.pages_crawled_count = false)
      (hs : matchsubdomain base_netloc (netlocStr u) = true)
      (hjs : strEndsWith u ".js" = true) :
      Step web base_netloc max_pages c
        { c with queue := rest, js_links := insert u c.js_links,
                 dequeued := c.dequeued ++ [u], acks := c.acks + 1 }
  /-- Admission: insert into `visited`, bump the counter, start the
  fetch (the worker suspends at the awaited network call). -/
  | dequeue_admit (c : Cfg) (i : Nat) (u : String) (rest : List String)
      (hq : c.queue = u :: rest)
      (hw : c.workers[i]? = some WState.idle)
      (hmem : ¬ (u ∈ c.visited ∨ u ∈ c.js_links))
      (hb : budgetReached max_pages c.pages_crawled_count = false)
      (hs : matchsubdomain base_netloc (netlocStr u) = true)
      (hjs : strEndsWith u ".js" = false) :
      Step web base_netloc max_pages c
        { c with queue := rest, visited := insert u c.visited,
                 pages_crawled_count := c.pages_crawled_count + 1,
                 workers := c.workers.set i (WState.fetching u),
                 fetched := c.fetched ++ [u],
                 dequeued := c.dequeued ++ [u] }
  /-- The fetch raises after retries: `finally` runs `task_done`, then
  the exception propagates out of the loop and the coroutine dies. -/
  | fetch_raises (c : Cfg) (i : Nat) (u : String)
      (hw : c.workers[i]? = some (WState.fetching u))
      (hf : web u = FetchOutcome.raises) :
      Step web base_netloc max_pages c
        { c with workers := c.workers.set i WState.dead,
                 acks := c.acks + 1 }
  /-- The fetch returns, but the budget is now exhausted: the submission
  loop `break`s at its first eligible link, so nothing is enqueued. -/
  | fetch_done_budget (c : Cfg) (i : Nat) (u : String)
      (hw : c.workers[i]? = some (WState.fetching u))
      (hf : web u ≠ FetchOutcome.raises)
      (hb : budgetReached max_pages c.pages_crawled_count = true) :
      Step web base_netloc max_pages c
        { c with workers := c.workers.set i WState.idle,
                 acks := c.acks + 1 }
  /-- The fetch returns with budget headroom: every eligible extracted
  link is enqueued, in an arbitrary set-iteration order. -/
  | fetch_done_submit (c : Cfg) (i : Nat) (u : String) (ls : List String)
      (hw : c.workers[i]? = some (WState.fetching u))
      (hf : web u ≠ FetchOutcome.raises)
      (hb : budgetReached max_pages c.pages_crawled_count = false)
      (hnodup : ls.Nodup)
      (hsub : ∀ l ∈ ls, l ∈ effectiveLinks web u ∧
        eligibleChild c.visited c.js_links base_netloc l = true)
      (hcomplete : ∀ l ∈ effectiveLinks web u,
        eligibleChild c.visited c.js_links base_netloc l = true → l ∈ ls) :
      Step web base_netloc max_pages c
        { c with queue := c.queue ++ ls,
                 workers := c.workers.set i WState.idle,
                 puts := c.puts + ls.length,
                 acks := c.acks + 1 }

/-- Executions of the worker pool. -/
def Reaches (web : String → FetchOutcome) (base_netloc : String)
    (max_pages : Int) : Cfg → Cfg → Prop :=
  Relation.ReflTransGen (Step web base_netloc max_pages)

def isFetching : WState → Bool
  | WState.fetching _ => true
  | _ => false

/-- Number of dequeued-but-unacknowledged items held by workers. -/
def inflight (ws : List WState) : Nat := ws.countP isFetching

/-- `queue.join()` returns exactly when every submitted item has been
acknowledged: nothing queued and nothing in flight. -/
def Drained (c : Cfg) : Prop :=
  c.queue = [] ∧ ∀ w ∈ c.workers, isFetching w = false

/-- The pages reachable from the start URL through in-scope, non-`.js`
links of successfully fetched markup (the link structure observable by
the crawler). -/
inductive ReachablePage (web : String → FetchOutcome)
    (base_netloc start_url : String) : String → Prop
  | start (h : strEndsWith start_url ".js" = false) :
      ReachablePage web base_netloc start_url start_url
  | child (u l : String) (hu : ReachablePage web base_netloc start_url u)
      (hl : l ∈ effectiveLinks web u)
      (hs : matchsubdomain base_netloc (netlocStr l) = true)
      (hjs : strEndsWith l ".js" = false) :
      ReachablePage web base_netloc start_url l

/-- The shutdown phase: after `queue.join()` returns, `crawl_async` puts
one `None` stop token per worker; a worker that dequeues `None` breaks
out of its loop (in `crawler.py`, `task_done` still runs via `finally`). -/
inductive StopStep :
    List (Option String) × List WState → List (Option String) × List WState → Prop
  | consume (q : List (Option String)) (ws : List WState) (i : Nat)
      (hw : ws[i]? = some WState.idle) :
      StopStep (none :: q, ws) (q, ws.set i WState.stopped)

/-! ## Concrete fixtures -/

/-- The spec's extraction fixture: one relative anchor, one absolute
anchor, one inline script calling `fetch("/api/data")`. -/
def fixtureDoc : List Node :=
  [Node.anchor (some "/a"),
   Node.anchor (some "https://other.example.com/b"),
   Node.scriptTag none (some "fetch(\"/api/data\")")]

def fixtureBase : String := "https://site.example.com/page"

def fixtureExpected : Finset String :=
  {"https://site.example.com/a", "https://other.example.com/b",
   "https://site.example.com/api/data"}

/-- Two-page site for the canonical-identity scenario: the seed carries a
query string, and the seed page links to the canonical form of itself. -/
def webSeedQuery : String → FetchOutcome := fun u =>
  if u = "https://site.example.com/page?id=1" then
    FetchOutcome.ok (some [Node.anchor (some "/page")]) "text/html"
  else if u = "https://site.example.com/page" then
    FetchOutcome.ok none "text/html"
  else FetchOutcome.raises

/-- Site whose seed links to one page and one `.js` resource. -/
def webBudgetJs : String → FetchOutcome := fun u =>
  if u = "https://x.com/" then
    FetchOutcome.ok
      (some [Node.anchor (some "b"), Node.anchor (some "c.js")]) "text/html"
  else if u = "https://x.com/b" then FetchOutcome.ok none "text/html"
  else FetchOutcome.raises

/-- A web where every fetch fails (raises after retries). -/
def webAllRaise : String → FetchOutcome := fun _ => FetchOutcome.raises

/-- A web where every fetch succeeds with an empty (falsy) body. -/
def webAllEmpty : String → FetchOutcome := fun _ =>
  FetchOutcome.ok none "text/html"

/-- A web where every fetch succeeds with markup containing no links. -/
def webNoLinks : String → FetchOutcome := fun _ =>
  FetchOutcome.ok (some []) "text/html"

/-- The inductive invariant of the `crawler.py` worker pool, relative to
the web oracle, the base netloc, the page budget and the start URL. -/
structure CrawlInv (web : String → FetchOutcome) (base_netloc : String)
    (max_pages : Int) (start_url : String) (c : Cfg) : Prop where
  queue_scope : ∀ u ∈ c.queue, matchsubdomain base_netloc (netlocStr u) = true
  visited_scope : ∀ u ∈ c.visited, matchsubdomain base_netloc (netlocStr u) = true
  js_scope : ∀ u ∈ c.js_links, matchsubdomain base_netloc (netlocStr u) = true
  fetching_visited : ∀ (i : Nat) (u : String),
    c.workers[i]? = some (WState.fetching u) → u ∈ c.visited
  visited_not_js : ∀ u ∈ c.visited, strEndsWith u ".js" = false
  js_ends : ∀ u ∈ c.js_links, strEndsWith u ".js" = true
  disj : ∀ u ∈ c.visited, u ∉ c.js_links
  count_card : c.visited.card = c.pages_crawled_count
  count_le : max_pages ≠ -1 → (c.pages_crawled_count : Int) ≤ max max_pages 0
  fetched_nodup : c.fetched.Nodup
  fetched_visited : ∀ u ∈ c.fetched, u ∈ c.visited
  visited_fetched : ∀ u ∈ c.visited, u ∈ c.fetched
  counter : c.puts = c.acks + c.queue.length + inflight c.workers
  queue_canon : ∀ u ∈ c.queue, u = start_url ∨ canonicalStr u = u
  visited_canon : ∀ u ∈ c.visited, u = start_url ∨ canonicalStr u = u
  seed_cov : start_url ∈ c.visited ∨ start_url ∈ c.js_links ∨
    start_url ∈ c.queue ∨ budgetReached max_pages c.pages_crawled_count = true
  link_cov : ∀ u ∈ c.visited, ∀ l ∈ effectiveLinks web u,
    matchsubdomain base_netloc (netlocStr l) = true →
    (∃ i : Nat, c.workers[i]? = some (WState.fetching u)) ∨
    budgetReached max_pages c.pages_crawled_count = true ∨
    l ∈ c.visited ∨ l ∈ c.js_links ∨ l ∈ c.queue

/-! ### Concrete run configurations

Intermediate and final configurations of small concrete runs, used to
exhibit executions of the transition system. -/

def cfgRaiseMid : Cfg :=
  ⟨[], [WState.fetching "https://z.com/a"], {"https://z.com/a"}, ∅, 1,
    ["https://z.com/a"], ["https://z.com/a"], 1, 0⟩

def cfgRaiseFinal : Cfg :=
  ⟨[], [WState.dead], {"https://z.com/a"}, ∅, 1,
    ["https://z.com/a"], ["https://z.com/a"], 1, 1⟩

def seedQ : String := "https://site.example.com/page?id=1"

def pageQ : String := "https://site.example.com/page"

def cfgQuery1 : Cfg :=
  ⟨[], [WState.fetching seedQ], {seedQ}, ∅, 1, [seedQ], [seedQ], 1, 0⟩

def cfgQuery2 : Cfg :=
  ⟨[pageQ], [WState.idle], {seedQ}, ∅, 1, [seedQ], [seedQ], 2, 1⟩

def cfgQuery3 : Cfg :=
  ⟨[], [WState.fetching pageQ], {pageQ, seedQ}, ∅, 2,
    [seedQ, pageQ], [seedQ, pageQ], 2, 1⟩

def cfgQuery4 : Cfg :=
  ⟨[], [WState.idle], {pageQ, seedQ}, ∅, 2,
    [seedQ, pageQ], [seedQ, pageQ], 2, 2⟩

def seedX : String := "https://x.com/"

def pageB : String := "https://x.com/b"

def pageJ : String := "https://x.com/c.js"

def cfgJs1 : Cfg :=
  ⟨[], [WState.fetching seedX], {seedX}, ∅, 1, [seedX], [seedX], 1, 0⟩

def cfgJs2 : Cfg :=
  ⟨[pageB, pageJ], [WState.idle], {seedX}, ∅, 1, [seedX], [seedX], 3, 1⟩

def cfgJs3 : Cfg :=
  ⟨[pageJ], [WState.fetching pageB], {pageB, seedX}, ∅, 2,
    [seedX, pageB], [seedX, pageB], 3, 1⟩

def cfgJs4 : Cfg :=
  ⟨[pageJ], [WState.idle], {pageB, seedX}, ∅, 2,
    [seedX, pageB], [seedX, pageB], 3, 2⟩

def cfgJs5 : Cfg :=
  ⟨[], [WState.idle], {pageB, seedX}, ∅, 2,
    [seedX, pageB], [seedX, pageB, pageJ], 3, 3⟩

def seedW : String := "https://w.com/"

def cfgBudget1 : Cfg :=
  ⟨[], [WState.fetching seedW], {seedW}, ∅, 1, [seedW], [seedW], 1, 0⟩

def cfgBudget2 : Cfg :=
  ⟨[], [WState.idle], {seedW}, ∅, 1, [seedW], [seedW], 1, 1⟩

def cfgNegBudget : Cfg :=
  ⟨[], [WState.idle], ∅, ∅, 0, [], [seedW], 1, 1⟩

def seedP : String := "https://q.com/p?x=1"

def cfgQSeed1 : Cfg :=
  ⟨[], [WState.fetching seedP], {seedP}, ∅, 1, [seedP], [seedP], 1, 0⟩

def cfgQSeed2 : Cfg :=
  ⟨[], [WState.idle], {seedP}, ∅, 1, [seedP], [seedP], 1, 1⟩

/-! ## Lemmas: splitting, parsing and canonicalization -/

theorem splitFirst_fst_not_mem (c : Char) (l : List Char) :
    c ∉ (splitFirst c l).1 := by
  induction l with
  | nil => simp [splitFirst]
  | cons x xs ih =>
    by_cases h : x = c
    · simp [splitFirst, h]
    · show c ∉ (if x = c then (([] : List Char), some xs)
        else (x :: (splitFirst c xs).1, (splitFirst c xs).2)).1
      rw [if_neg h]
      intro hmem
      rcases List.mem_cons.mp hmem with h1 | h2
      · exact h h1.symm
      · exact ih h2

theorem splitFirst_none (c : Char) (l : List Char)
    (h : (splitFirst c l).2 = none) : (splitFirst c l).1 = l := by
  induction l with
  | nil => simp [splitFirst]
  | cons x xs ih =>
    by_cases hx : x = c
    · simp [splitFirst, hx] at h
    · have h' : (splitFirst c xs).2 = none := by
        simpa [splitFirst, hx] using h
      simp [splitFirst, hx, ih h']

theorem splitFirst_some (c : Char) (l b : List Char)
    (h : (splitFirst c l).2 = some b) : l = (splitFirst c l).1 ++ c :: b := by
  induction l generalizing b with
  | nil => simp [splitFirst] at h
  | cons x xs ih =>
    by_cases hx : x = c
    · have h' : xs = b := by simpa [splitFirst, hx] using h
      simp [splitFirst, hx, h']
    · have h' : (splitFirst c xs).2 = some b := by
        simpa [splitFirst, hx] using h
      have := ih b h'
      show x :: xs = (if x = c then (([] : List Char), some xs)
        else (x :: (splitFirst c xs).1, (splitFirst c xs).2)).1 ++ c :: b
      rw [if_neg hx]
      simpa using this

theorem splitFirst_not_mem_eq_none (c : Char) (l : List Char)
    (h : c ∉ l) : (splitFirst c l).2 = none := by
  induction l with
  | nil => simp [splitFirst]
  | cons x xs ih =>
    simp only [List.mem_cons, not_or] at h
    have hx : ¬ x = c := fun hh => h.1 hh.symm
    have := ih h.2
    simp [splitFirst, hx, this]

theorem splitFirst_fst_before (c : Char) (l : List Char) :
    (splitFirst c l).1 <+: l := by
  induction l with
  | nil => simp [splitFirst]
  | cons x xs ih =>
    by_cases hx : x = c
    · simp [splitFirst, hx]
    · simpa [splitFirst, hx] using ih

theorem splitFirst_append (c : Char) (A R : List Char) (hA : c ∉ A) :
    splitFirst c (A ++ c :: R) = (A, some R) := by
  induction A with
  | nil => simp [splitFirst]
  | cons x xs ih =>
    simp only [List.mem_cons, not_or] at hA
    have hx : ¬ x = c := fun hh => hA.1 hh.symm
    simp [splitFirst, hx, ih hA.2]

theorem takeWhile_append_not (p : Char → Bool) (N P : List Char)
    (hN : ∀ c ∈ N, p c = true) (hP : P = [] ∨ ∃ h t, P = h :: t ∧ p h = false) :
    (N ++ P).takeWhile p = N ∧ (N ++ P).dropWhile p = P := by
  induction N with
  | nil =>
    rcases hP with rfl | ⟨h, t, rfl, hh⟩
    · simp
    · simp [List.takeWhile, List.dropWhile, hh]
  | cons x xs ih =>
    have hx : p x = true := hN x (List.mem_cons_self x xs)
    have := ih (fun c hc => hN c (List.mem_cons_of_mem x hc))
    simp [List.takeWhile, List.dropWhile, hx, this.1, this.2]

/-- The canonical rebuild never contains a question mark or a hash, and
the scheme part never contains a colon. -/
theorem parseChars_parts (s : List Char) :
    colonC ∉ (parseChars s).scheme ∧
    (∀ c ∈ (parseChars s).scheme ++ (parseChars s).netloc ++ (parseChars s).path,
      c ≠ qmarkC ∧ c ≠ hashC) := by
  have hbq_q : qmarkC ∉ (splitFirst qmarkC (splitFirst hashC s).1).1 :=
    splitFirst_fst_not_mem _ _
  have hbq_h : hashC ∉ (splitFirst qmarkC (splitFirst hashC s).1).1 := fun hmem =>
    splitFirst_fst_not_mem hashC s
      ((splitFirst_fst_before qmarkC (splitFirst hashC s).1).subset hmem)
  have hsch_pre := splitFirst_fst_before colonC
    (splitFirst qmarkC (splitFirst hashC s).1).1
  have hsch_c := splitFirst_fst_not_mem colonC
    (splitFirst qmarkC (splitFirst hashC s).1).1
  have hgen : ∀ c ∈ (splitFirst qmarkC (splitFirst hashC s).1).1,
      c ≠ qmarkC ∧ c ≠ hashC := fun c hc =>
    ⟨fun hq => hbq_q (hq ▸ hc), fun hh => hbq_h (hh ▸ hc)⟩
  rcases hm : (splitFirst colonC (splitFirst qmarkC (splitFirst hashC s).1).1).2
    with _ | rest
  · refine ⟨?_, ?_⟩ <;> simp only [parseChars, hm]
    · simp
    · intro c hc
      simp only [List.append_assoc, List.mem_append] at hc
      rcases hc with hc | hc | hc
      · simp at hc
      · simp at hc
      · exact hgen c hc
  · have hrest : ∀ c ∈ rest, c ∈ (splitFirst qmarkC (splitFirst hashC s).1).1 := by
      intro c hc
      rw [splitFirst_some colonC _ rest hm]
      simp [hc]
    by_cases hpre : listHasPre [slashC, slashC] rest
    · refine ⟨?_, ?_⟩ <;> simp only [parseChars, hm, hpre, if_pos]
      · exact hsch_c
      · intro c hc
        simp only [List.append_assoc, List.mem_append] at hc
        have hcbq : c ∈ (splitFirst qmarkC (splitFirst hashC s).1).1 := by
          rcases hc with hc | hc | hc
          · exact hsch_pre.subset hc
          · exact hrest c ((rest.drop_sublist 2).subset
              ((List.takeWhile_sublist _).subset hc))
          · exact hrest c ((rest.drop_sublist 2).subset
              ((List.dropWhile_sublist _).subset hc))
        exact hgen c hcbq
    · refine ⟨?_, ?_⟩ <;> simp only [parseChars, hm, hpre, if_neg,
        Bool.false_eq_true, not_false_iff]
      · exact hsch_c
      · intro c hc
        simp only [List.append_assoc, List.mem_append] at hc
        have hcbq : c ∈ (splitFirst qmarkC (splitFirst hashC s).1).1 := by
          rcases hc with hc | hc | hc
          · exact hsch_pre.subset hc
          · simp at hc
          · exact hrest c hc
        exact hgen c hcbq

theorem splitFirst_of_not_mem (c : Char) (l : List Char) (h : c ∉ l) :
    splitFirst c l = (l, none) := by
  have h2 := splitFirst_not_mem_eq_none c l h
  have h1 := splitFirst_none c l h2
  cases hsp : splitFirst c l with
  | mk a b =>
    rw [hsp] at h1 h2
    simp only at h1 h2
    rw [h1, h2]

theorem parseChars_query_frag (s : List Char) :
    (parseChars s).query = (splitFirst qmarkC (splitFirst hashC s).1).2 ∧
    (parseChars s).frag = (splitFirst hashC s).2 := by
  rcases hm : (splitFirst colonC (splitFirst qmarkC (splitFirst hashC s).1).1).2
    with _ | rest
  · constructor <;> simp only [parseChars, hm]
  · by_cases hpre : listHasPre [slashC, slashC] rest
    · constructor <;> simp only [parseChars, hm, hpre, if_pos]
    · constructor <;> simp only [parseChars, hm, hpre, if_neg,
        Bool.false_eq_true, not_false_iff]

/-- Any string of the shape `scheme ++ "://" ++ rest` with no colon in the
scheme and no question mark or hash anywhere is a fixed point of the
canonical rebuild. -/
theorem canon_of_shape (A R : List Char) (hA : colonC ∉ A)
    (hq : ∀ c ∈ A ++ R, c ≠ qmarkC ∧ c ≠ hashC) :
    canonChars (A ++ colonC :: slashC :: slashC :: R) =
      A ++ colonC :: slashC :: slashC :: R := by
  have hh : hashC ∉ A ++ colonC :: slashC :: slashC :: R := by
    simp only [List.mem_append, List.mem_cons, not_or]
    exact ⟨fun h1 => (hq _ (List.mem_append_left _ h1)).2 rfl, by decide,
      by decide, by decide, fun h1 => (hq _ (List.mem_append_right _ h1)).2 rfl⟩
  have hqm : qmarkC ∉ A ++ colonC :: slashC :: slashC :: R := by
    simp only [List.mem_append, List.mem_cons, not_or]
    exact ⟨fun h1 => (hq _ (List.mem_append_left _ h1)).1 rfl, by decide,
      by decide, by decide, fun h1 => (hq _ (List.mem_append_right _ h1)).1 rfl⟩
  have hsplit : splitFirst colonC (A ++ colonC :: slashC :: slashC :: R) =
      (A, some (slashC :: slashC :: R)) := splitFirst_append _ _ _ hA
  have hparse : parseChars (A ++ colonC :: slashC :: slashC :: R) =
      ⟨A, R.takeWhile (fun c => c ≠ slashC),
        R.dropWhile (fun c => c ≠ slashC), none, none⟩ := by
    simp only [parseChars, splitFirst_of_not_mem _ _ hh,
      splitFirst_of_not_mem _ _ hqm, hsplit]
    simp [listHasPre]
  unfold canonChars
  rw [hparse]
  simp only
  rw [List.takeWhile_append_dropWhile]

theorem canonChars_shape (s : List Char) :
    canonChars s = (parseChars s).scheme ++ colonC :: slashC :: slashC ::
      ((parseChars s).netloc ++ (parseChars s).path) := rfl

theorem canonChars_idem (s : List Char) :
    canonChars (canonChars s) = canonChars s := by
  have h := parseChars_parts s
  rw [canonChars_shape s]
  exact canon_of_shape _ _ h.1 (fun c hc => h.2 c (by simpa using hc))

theorem canonChars_no_special (s : List Char) :
    qmarkC ∉ canonChars s ∧ hashC ∉ canonChars s := by
  have h := (parseChars_parts s).2
  rw [canonChars_shape s]
  have key : ∀ d, (d ∈ (parseChars s).scheme ∨ d ∈ (parseChars s).netloc ∨
      d ∈ (parseChars s).path) → d ≠ qmarkC ∧ d ≠ hashC := by
    intro d hd
    refine h d ?_
    simp only [List.append_assoc, List.mem_append]
    tauto
  constructor
  · simp only [List.mem_append, List.mem_cons, not_or]
    exact ⟨fun h1 => (key _ (Or.inl h1)).1 rfl, by decide, by decide, by decide,
      fun h1 => (key _ (Or.inr (Or.inl h1))).1 rfl,
      fun h1 => (key _ (Or.inr (Or.inr h1))).1 rfl⟩
  · simp only [List.mem_append, List.mem_cons, not_or]
    exact ⟨fun h1 => (key _ (Or.inl h1)).2 rfl, by decide, by decide, by decide,
      fun h1 => (key _ (Or.inr (Or.inl h1))).2 rfl,
      fun h1 => (key _ (Or.inr (Or.inr h1))).2 rfl⟩

theorem canonicalStr_idem (s : String) :
    canonicalStr (canonicalStr s) = canonicalStr s := by
  show String.mk (canonChars (canonChars s.toList)) = String.mk (canonChars s.toList)
  rw [canonChars_idem]

/-- A URL carrying a query string or a fragment is changed by
canonicalization: its dedup identity differs from its canonical form. -/
theorem canonicalStr_ne_of_query_or_frag (s : String)
    (h : (parseUrl s).query ≠ none ∨ (parseUrl s).frag ≠ none) :
    canonicalStr s ≠ s := by
  intro heq
  have hlist : canonChars s.toList = s.toList := congrArg String.toList heq
  have hqf := parseChars_query_frag s.toList
  rcases h with h | h
  · rcases hop : (splitFirst qmarkC (splitFirst hashC s.toList).1).2 with _ | q
    · rw [parseUrl] at h; rw [hqf.1, hop] at h; exact h rfl
    · have hmem : qmarkC ∈ (splitFirst hashC s.toList).1 := by
        rw [splitFirst_some qmarkC _ q hop]
        simp
      have : qmarkC ∈ s.toList :=
        (splitFirst_fst_before hashC s.toList).subset hmem
      rw [← hlist] at this
      exact (canonChars_no_special s.toList).1 this
  · rcases hop : (splitFirst hashC s.toList).2 with _ | f
    · rw [parseUrl] at h; rw [hqf.2, hop] at h; exact h rfl
    · have hmem : hashC ∈ s.toList := by
        rw [splitFirst_some hashC _ f hop]
        simp
      rw [← hlist] at hmem
      exact (canonChars_no_special s.toList).2 hmem

/-! ## Lemmas: extractors -/

theorem strEndsWith_self (s : String) : strEndsWith s s = true := by
  simp [strEndsWith]

theorem anchorLinks_canon (doc : List Node) (b l : String)
    (h : l ∈ anchorLinks doc b) : canonicalStr l = l := by
  rcases List.mem_filterMap.mp h with ⟨n, _, hmap⟩
  rcases n with href | ⟨src, body⟩ | _
  · rcases href with _ | href
    · simp at hmap
    · simp only [Option.some.injEq] at hmap
      rw [← hmap]
      exact canonicalStr_idem _
  · simp at hmap
  · simp at hmap

/-- Every link produced by the package extractor is already canonical. -/
theorem extractor_mem_canon (doc : List Node) (b l : String)
    (h : l ∈ Extractor.extract_links_from_html doc b) : canonicalStr l = l := by
  unfold Extractor.extract_links_from_html at h
  rcases Finset.mem_union.mp h with h | h
  · exact anchorLinks_canon doc b l (List.mem_toFinset.mp h)
  · rcases List.mem_filterMap.mp (List.mem_toFinset.mp h) with ⟨n, _, hmap⟩
    rcases n with href | ⟨src, body⟩ | _
    · simp at hmap
    · rcases src with _ | src
      · simp at hmap
      · simp only [Option.some.injEq] at hmap
        rw [← hmap]
        exact canonicalStr_idem _
    · simp at hmap

theorem effectiveLinks_canon (web : String → FetchOutcome) (u l : String)
    (h : l ∈ effectiveLinks web u) : canonicalStr l = l := by
  unfold effectiveLinks at h
  rcases hw : web u with _ | ⟨content, ctype⟩ <;> rw [hw] at h
  · simp at h
  · rcases content with _ | doc
    · simp at h
    · have h' : l ∈ (if strContains ctype "html" = true
          then Extractor.extract_links_from_html doc u else ∅) := h
      by_cases hh : strContains ctype "html" = true
      · rw [if_pos hh] at h'
        exact extractor_mem_canon doc u l h'
      · rw [if_neg hh] at h'
        simp at h'

theorem inlineScriptLinks_subset (doc : List Node) (base body : String)
    (src : Option String) (h : Node.scriptTag src (some body) ∈ doc) :
    extract_links_from_script body base ⊆ inlineScriptLinks doc base := by
  induction doc with
  | nil => simp at h
  | cons n rest ih =>
    rcases List.mem_cons.mp h with rfl | h2
    · exact le_trans (Finset.subset_union_left) (le_of_eq rfl)
    · rcases n with href | ⟨src2, body2⟩ | _
      · exact ih h2
      · rcases body2 with _ | b2
        · exact ih h2
        · exact le_trans (ih h2) Finset.subset_union_right
      · exact ih h2

/-! ## Claim C1: inline-script extraction -/

/-- C1 (counterexample).  The `url_extractor` package's
`extract_links_from_html` — the extractor the packaged crawler uses —
does not apply the script-content patterns to inline script bodies: on
the spec's own fixture it misses `https://site.example.com/api/data` and
does not return the claimed three-element set. -/
theorem claim1_counterexample :
    Extractor.extract_links_from_html fixtureDoc fixtureBase ≠ fixtureExpected := by
  decide

/-- C1 (amended).  In `main.py`'s variant of `extract_links_from_html`,
every inline script body is processed by `extract_links_from_script`
(whose output is contained in the document's extraction), and on the
fixed HTML fixture the extraction returns exactly the claimed set
`{https://site.example.com/a, https://other.example.com/b,
https://site.example.com/api/data}`.  The package's extractor collects
only anchor `href`s and script `src`s. -/
theorem claim1_amended :
    Main.extract_links_from_html fixtureDoc fixtureBase = fixtureExpected ∧
    (∀ (doc : List Node) (base body : String) (src : Option String),
      Node.scriptTag src (some body) ∈ doc →
      extract_links_from_script body base ⊆ Main.extract_links_from_html doc base) ∧
    (Extractor.extract_links_from_html fixtureDoc fixtureBase =
      {"https://site.example.com/a", "https://other.example.com/b"}) := by
  refine ⟨by decide, ?_, by decide⟩
  intro doc base body src h
  exact le_trans (inlineScriptLinks_subset doc base body src h)
    Finset.subset_union_right

/-- C1 witness: the amended theorem applied to the fixture's inline
script. -/
theorem claim1_witness :
    Node.scriptTag none (some "fetch(\"/api/data\")") ∈ fixtureDoc ∧
    extract_links_from_script "fetch(\"/api/data\")" fixtureBase ⊆
      Main.extract_links_from_html fixtureDoc fixtureBase :=
  ⟨by decide,
    claim1_amended.2.1 fixtureDoc fixtureBase "fetch(\"/api/data\")" none (by decide)⟩

/-! ## Claim C3: retry and backoff -/

/-- C3 (counterexample).  An invocation whose underlying attempts all
fail transiently makes 4 calls (the `range(attempts)` loop plus the
unprotected `# Last attempt` call), not at most 3; it sleeps 1s, 2s and
4s; and because `delay` is a `nonlocal` closure variable it is left at 8,
so the next failing invocation sleeps 8s, 16s, 32s instead of starting
afresh at 1s, 2s. -/
theorem claim3_counterexample :
    ¬ ((get_page_content_invocation
        (fun _ => (Attempt.transient : Attempt Unit)) 1).calls ≤ 3) ∧
    (get_page_content_invocation
        (fun _ => (Attempt.transient : Attempt Unit)) 1).sleeps = [1, 2, 4] ∧
    (get_page_content_invocation
        (fun _ => (Attempt.transient : Attempt Unit)) 1).finalDelay = 8 ∧
    (get_page_content_invocation
        (fun _ => (Attempt.transient : Attempt Unit)) 8).sleeps = [8, 16, 32] := by
  decide

/-- C3 (amended).  A single invocation of the decorated fetch makes at
most 4 calls (at least 1); it sleeps before each retried attempt,
starting from the current value `d` of the decorator's shared `delay`
variable and doubling each time, and leaves `delay` at `2^(calls-1) * d`
(carried into the next invocation rather than reset); a fully failing
invocation makes exactly 4 calls and surfaces the failure (`result =
none`).  In the crawl, a step in which a worker's awaited fetch of `u`
raises leaves the queue, `visited` and `js_links` unchanged: no links
are extracted from that page. -/
theorem claim3_amended {α : Type} (f : Nat → Attempt α) (d : Nat) :
    (get_page_content_invocation f d).calls ≤ 4 ∧
    1 ≤ (get_page_content_invocation f d).calls ∧
    (get_page_content_invocation f d).sleeps =
      [d, 2 * d, 4 * d].take ((get_page_content_invocation f d).calls - 1) ∧
    (get_page_content_invocation f d).finalDelay =
      2 ^ ((get_page_content_invocation f d).calls - 1) * d ∧
    ((get_page_content_invocation f d).result = none →
      (get_page_content_invocation f d).calls = 4) ∧
    (∀ (web : String → FetchOutcome) (base_netloc : String) (max_pages : Int)
      (c c' : Cfg) (i : Nat) (u : String),
      Step web base_netloc max_pages c c' →
      c.workers[i]? = some (WState.fetching u) →
      c'.workers[i]? ≠ some (WState.fetching u) →
      web u = FetchOutcome.raises →
      c'.queue = c.queue ∧ c'.visited = c.visited ∧
        c'.js_links = c.js_links ∧ c'.acks = c.acks + 1) := by
  refine ⟨?_, ?_, ?_, ?_, ?_, ?_⟩
  · rcases h0 : f 0 with _ | _ <;> rcases h1 : f 1 with _ | _ <;>
      rcases h2 : f 2 with _ | _ <;> rcases h3 : f 3 with _ | _ <;>
      simp [get_page_content_invocation, retryLoop, h0, h1, h2, h3]
  · rcases h0 : f 0 with _ | _ <;> rcases h1 : f 1 with _ | _ <;>
      rcases h2 : f 2 with _ | _ <;> rcases h3 : f 3 with _ | _ <;>
      simp [get_page_content_invocation, retryLoop, h0, h1, h2, h3]
  · rcases h0 : f 0 with _ | _ <;> rcases h1 : f 1 with _ | _ <;>
      rcases h2 : f 2 with _ | _ <;> rcases h3 : f 3 with _ | _ <;>
      simp [get_page_content_invocation, retryLoop, h0, h1, h2, h3]
    all_goals first
      | (exact ⟨True.intro, True.intro⟩)
      | rfl
      | omega
  · rcases h0 : f 0 with _ | _ <;> rcases h1 : f 1 with _ | _ <;>
      rcases h2 : f 2 with _ | _ <;> rcases h3 : f 3 with _ | _ <;>
      simp [get_page_content_invocation, retryLoop, h0, h1, h2, h3]
    all_goals first
      | (exact ⟨True.intro, True.intro⟩)
      | rfl
      | omega
  · rcases h0 : f 0 with _ | _ <;> rcases h1 : f 1 with _ | _ <;>
      rcases h2 : f 2 with _ | _ <;> rcases h3 : f 3 with _ | _ <;>
      simp [get_page_content_invocation, retryLoop, h0, h1, h2, h3]
  · intro web base_netloc max_pages c c' i u hstep hw hne hraise
    cases hstep with
    | dequeue_dedup j v rest hq hwj hmem => exact absurd hw hne
    | dequeue_budget j v rest hq hwj hmem hb => exact absurd hw hne
    | dequeue_scope j v rest hq hwj hmem hb hs => exact absurd hw hne
    | dequeue_js j v rest hq hwj hmem hb hs hjs => exact absurd hw hne
    | dequeue_admit j v rest hq hwj hmem hb hs hjs =>
      by_cases hij : j = i
      · subst hij
        rw [hw] at hwj
        simp at hwj
      · refine absurd ?_ hne
        show (c.workers.set j (WState.fetching v))[i]? = some (WState.fetching u)
        rw [List.getElem?_set_ne hij]
        exact hw
    | fetch_raises j v hwj hf =>
      by_cases hij : j = i
      · subst hij
        exact ⟨rfl, rfl, rfl, rfl⟩
      · refine absurd ?_ hne
        show (c.workers.set j WState.dead)[i]? = some (WState.fetching u)
        rw [List.getElem?_set_ne hij]
        exact hw
    | fetch_done_budget j v hwj hf hb =>
      by_cases hij : j = i
      · subst hij
        rw [hw] at hwj
        simp only [Option.some.injEq, WState.fetching.injEq] at hwj
        subst hwj
        exact absurd hraise hf
      · refine absurd ?_ hne
        show (c.workers.set j WState.idle)[i]? = some (WState.fetching u)
        rw [List.getElem?_set_ne hij]
        exact hw
    | fetch_done_submit j v ls hwj hf hb hnodup hsub hcomplete =>
      by_cases hij : j = i
      · subst hij
        rw [hw] at hwj
        simp only [Option.some.injEq, WState.fetching.injEq] at hwj
        subst hwj
        exact absurd hraise hf
      · refine absurd ?_ hne
        show (c.workers.set j WState.idle)[i]? = some (WState.fetching u)
        rw [List.getElem?_set_ne hij]
        exact hw

/-- C3 witness: the amended theorem evaluated on an invocation that
succeeds at the third call with shared delay 1, together with a
fetch-raising step of the one-worker pool on `webAllRaise`. -/
theorem claim3_witness :
    (get_page_content_invocation
      (fun n => if n < 2 then (Attempt.transient : Attempt Nat)
                else Attempt.ok 7) 1).calls ≤ 4 ∧
    (get_page_content_invocation
      (fun n => if n < 2 then (Attempt.transient : Attempt Nat)
                else Attempt.ok 7) 1).sleeps = [1, 2] := by
  refine ⟨(claim3_amended _ 1).1, ?_⟩
  have h := (claim3_amended (fun n =>
    if n < 2 then (Attempt.transient : Attempt Nat) else Attempt.ok 7) 1).2.2.1
  rw [h]
  decide

/-! ## Claim C8 (counterexample part): `main.py`'s worker skips `task_done` -/

/-- C8 (counterexample).  In `main.py`'s worker (one of the claim's two
cited implementations), a dequeued stop token is processed with zero
`task_done` calls (the `break` precedes any acknowledgement), and a
timeout that propagates out of its undecorated fetch also skips the
acknowledgement — not exactly one acknowledgement per dequeued item. -/
theorem claim8_counterexample :
    (Main.workerProcess "example.com" (-1) ⟨∅, 0⟩ none
        MainFetch.clientError).2.2.1 = 0 ∧
    (Main.workerProcess "example.com" (-1) ⟨∅, 0⟩
        (some "https://example.com/x") MainFetch.timeoutRaise).2.2.1 = 0 ∧
    (0 : Nat) ≠ 1 := by
  refine ⟨rfl, by decide, by decide⟩

/-! ## Lemmas: the crawl invariant -/

theorem reaches_inv {web : String → FetchOutcome} {base_netloc : String}
    {max_pages : Int} (P : Cfg → Prop)
    (hstep : ∀ c c', P c → Step web base_netloc max_pages c c' → P c')
    {c c' : Cfg} (h : Reaches web base_netloc max_pages c c') (hc : P c) :
    P c' := by
  induction h with
  | refl => exact hc
  | tail hr hs ih => exact hstep _ _ ih hs

theorem countP_set_of_get (p : WState → Bool) (ws : List WState) (i : Nat)
    (w w' : WState) (h : ws[i]? = some w) :
    (ws.set i w').countP p + (if p w then 1 else 0) =
      ws.countP p + (if p w' then 1 else 0) := by
  induction ws generalizing i with
  | nil => simp at h
  | cons x xs ih =>
    cases i with
    | zero =>
      simp only [List.getElem?_cons_zero, Option.some.injEq] at h
      subst h
      simp only [List.set_cons_zero, List.countP_cons]
      omega
    | succ n =>
      simp only [List.getElem?_cons_succ] at h
      have := ih n h
      simp only [List.set_cons_succ, List.countP_cons]
      omega

theorem budgetReached_mono (N : Int) (k : Nat)
    (h : budgetReached N k = true) : budgetReached N (k + 1) = true := by
  simp only [budgetReached, decide_eq_true_eq] at h ⊢
  refine ⟨h.1, le_trans h.2 ?_⟩
  push_cast
  omega

theorem eligibleChild_iff (visited js : Finset String) (b l : String) :
    eligibleChild visited js b l = true ↔
      l ∉ visited ∧ l ∉ js ∧ matchsubdomain b (netlocStr l) = true := by
  simp [eligibleChild, Bool.and_eq_true, decide_eq_true_eq, and_assoc]

theorem getElem?_some_lt {α : Type} (l : List α) (i : Nat) (a : α)
    (h : l[i]? = some a) : i < l.length := by
  by_contra hlt
  rw [List.getElem?_eq_none (by omega)] at h
  cases h

theorem crawlInv_init (web : String → FetchOutcome) (base_netloc : String)
    (max_pages : Int) (start_url : String) (W : Nat)
    (hbase : matchsubdomain base_netloc (netlocStr start_url) = true) :
    CrawlInv web base_netloc max_pages start_url (initCfg start_url W) := by
  refine ⟨?_, ?_, ?_, ?_, ?_, ?_, ?_, ?_, ?_, ?_, ?_, ?_, ?_, ?_, ?_, ?_, ?_⟩
  · intro u hu
    simp only [initCfg, List.mem_singleton] at hu
    exact hu ▸ hbase
  · intro u hu; simp [initCfg] at hu
  · intro u hu; simp [initCfg] at hu
  · intro i u h
    rcases List.mem_replicate.mp (List.getElem?_mem h) with ⟨_, hw⟩
    cases hw
  · intro u hu; simp [initCfg] at hu
  · intro u hu; simp [initCfg] at hu
  · intro u hu; simp [initCfg] at hu
  · simp [initCfg]
  · intro _
    simp only [initCfg]
    push_cast
    exact le_max_of_le_right (by norm_num)
  · simp [initCfg]
  · intro u hu; simp [initCfg] at hu
  · intro u hu; simp [initCfg] at hu
  · simp only [initCfg, inflight]
    rw [List.countP_eq_zero.mpr]
    · simp
    · intro w hw
      rw [(List.mem_replicate.mp hw).2]
      simp [isFetching]
  · intro u hu
    simp only [initCfg, List.mem_singleton] at hu
    exact Or.inl hu
  · intro u hu; simp [initCfg] at hu
  · exact Or.inr (Or.inr (Or.inl (by simp [initCfg])))
  · intro u hu; simp [initCfg] at hu

theorem crawlInv_step (web : String → FetchOutcome) (base_netloc : String)
    (max_pages : Int) (start_url : String) (c c' : Cfg)
    (hinv : CrawlInv web base_netloc max_pages start_url c)
    (hstp : Step web base_netloc max_pages c c') :
    CrawlInv web base_netloc max_pages start_url c' := by
  cases hstp with
  | dequeue_dedup j u rest hq hwj hmem =>
    have hqlen : c.queue.length = rest.length + 1 := by rw [hq]; simp
    refine ⟨?_, hinv.visited_scope, hinv.js_scope, hinv.fetching_visited,
      hinv.visited_not_js, hinv.js_ends, hinv.disj, hinv.count_card,
      hinv.count_le, hinv.fetched_nodup, hinv.fetched_visited,
      hinv.visited_fetched, ?_, ?_, hinv.visited_canon, ?_, ?_⟩
    · intro x hx
      exact hinv.queue_scope x (by rw [hq]; exact List.mem_cons_of_mem _ hx)
    · have := hinv.counter
      simp only
      omega
    · intro x hx
      exact hinv.queue_canon x (by rw [hq]; exact List.mem_cons_of_mem _ hx)
    · rcases hinv.seed_cov with h | h | h | h
      · exact Or.inl h
      · exact Or.inr (Or.inl h)
      · rw [hq] at h
        rcases List.mem_cons.mp h with rfl | h
        · rcases hmem with h | h
          · exact Or.inl h
          · exact Or.inr (Or.inl h)
        · exact Or.inr (Or.inr (Or.inl h))
      · exact Or.inr (Or.inr (Or.inr h))
    · intro v hv l hl hscope
      rcases hinv.link_cov v hv l hl hscope with h | h | h | h | h
      · exact Or.inl h
      · exact Or.inr (Or.inl h)
      · exact Or.inr (Or.inr (Or.inl h))
      · exact Or.inr (Or.inr (Or.inr (Or.inl h)))
      · rw [hq] at h
        rcases List.mem_cons.mp h with rfl | h
        · rcases hmem with h | h
          · exact Or.inr (Or.inr (Or.inl h))
          · exact Or.inr (Or.inr (Or.inr (Or.inl h)))
        · exact Or.inr (Or.inr (Or.inr (Or.inr h)))
  | dequeue_budget j u rest hq hwj hmem hb =>
    have hqlen : c.queue.length = rest.length + 1 := by rw [hq]; simp
    refine ⟨?_, hinv.visited_scope, hinv.js_scope, hinv.fetching_visited,
      hinv.visited_not_js, hinv.js_ends, hinv.disj, hinv.count_card,
      hinv.count_le, hinv.fetched_nodup, hinv.fetched_visited,
      hinv.visited_fetched, ?_, ?_, hinv.visited_canon, ?_, ?_⟩
    · intro x hx
      exact hinv.queue_scope x (by rw [hq]; exact List.mem_cons_of_mem _ hx)
    · have := hinv.counter
      simp only
      omega
    · intro x hx
      exact hinv.queue_canon x (by rw [hq]; exact List.mem_cons_of_mem _ hx)
    · exact Or.inr (Or.inr (Or.inr hb))
    · intro v hv l hl hscope
      exact Or.inr (Or.inl hb)
  | dequeue_scope j u rest hq hwj hmem hb hsc =>
    have : matchsubdomain base_netloc (netlocStr u) = true :=
      hinv.queue_scope u (by rw [hq]; exact List.mem_cons_self u rest)
    rw [this] at hsc
    cases hsc
  | dequeue_js j u rest hq hwj hmem hb hsc hjs =>
    have hqlen : c.queue.length = rest.length + 1 := by rw [hq]; simp
    have humem : u ∉ c.visited := fun h => hmem (Or.inl h)
    refine ⟨?_, hinv.visited_scope, ?_, hinv.fetching_visited,
      hinv.visited_not_js, ?_, ?_, hinv.count_card,
      hinv.count_le, hinv.fetched_nodup, hinv.fetched_visited,
      hinv.visited_fetched, ?_, ?_, hinv.visited_canon, ?_, ?_⟩
    · intro x hx
      exact hinv.queue_scope x (by rw [hq]; exact List.mem_cons_of_mem _ hx)
    · intro x hx
      rcases Finset.mem_insert.mp hx with rfl | hx
      · exact hsc
      · exact hinv.js_scope x hx
    · intro x hx
      rcases Finset.mem_insert.mp hx with rfl | hx
      · exact hjs
      · exact hinv.js_ends x hx
    · intro x hx hins
      rcases Finset.mem_insert.mp hins with rfl | hins
      · exact humem hx
      · exact hinv.disj x hx hins
    · have := hinv.counter
      simp only
      omega
    · intro x hx
      exact hinv.queue_canon x (by rw [hq]; exact List.mem_cons_of_mem _ hx)
    · rcases hinv.seed_cov with h | h | h | h
      · exact Or.inl h
      · exact Or.inr (Or.inl (Finset.mem_insert_of_mem h))
      · rw [hq] at h
        rcases List.mem_cons.mp h with rfl | h
        · exact Or.inr (Or.inl (Finset.mem_insert_self _ _))
        · exact Or.inr (Or.inr (Or.inl h))
      · exact Or.inr (Or.inr (Or.inr h))
    · intro v hv l hl hscope
      rcases hinv.link_cov v hv l hl hscope with h | h | h | h | h
      · exact Or.inl h
      · exact Or.inr (Or.inl h)
      · exact Or.inr (Or.inr (Or.inl h))
      · exact Or.inr (Or.inr (Or.inr (Or.inl (Finset.mem_insert_of_mem h))))
      · rw [hq] at h
        rcases List.mem_cons.mp h with rfl | h
        · exact Or.inr (Or.inr (Or.inr (Or.inl (Finset.mem_insert_self _ _))))
        · exact Or.inr (Or.inr (Or.inr (Or.inr h)))
  | dequeue_admit j u rest hq hwj hmem hb hsc hjs =>
    have hqlen : c.queue.length = rest.length + 1 := by rw [hq]; simp
    have humem : u ∉ c.visited := fun h => hmem (Or.inl h)
    have hujs : u ∉ c.js_links := fun h => hmem (Or.inr h)
    have hjlt : j < c.workers.length := getElem?_some_lt _ _ _ hwj
    have hcount := countP_set_of_get isFetching c.workers j WState.idle
      (WState.fetching u) hwj
    refine ⟨?_, ?_, hinv.js_scope, ?_, ?_, hinv.js_ends, ?_, ?_, ?_, ?_, ?_,
      ?_, ?_, ?_, ?_, ?_, ?_⟩
    · intro x hx
      exact hinv.queue_scope x (by rw [hq]; exact List.mem_cons_of_mem _ hx)
    · intro x hx
      rcases Finset.mem_insert.mp hx with rfl | hx
      · exact hsc
      · exact hinv.visited_scope x hx
    · intro i v hw
      by_cases hij : j = i
      · subst hij
        rw [List.getElem?_set_eq_of_lt _ hjlt] at hw
        simp only [Option.some.injEq, WState.fetching.injEq] at hw
        subst hw
        exact Finset.mem_insert_self _ _
      · rw [List.getElem?_set_ne hij] at hw
        exact Finset.mem_insert_of_mem (hinv.fetching_visited i v hw)
    · intro x hx
      rcases Finset.mem_insert.mp hx with rfl | hx
      · exact hjs
      · exact hinv.visited_not_js x hx
    · intro x hx hins
      rcases Finset.mem_insert.mp hx with rfl | hx
      · exact hujs hins
      · exact hinv.disj x hx hins
    · simp only
      rw [Finset.card_insert_of_not_mem humem, hinv.count_card]
    · intro hN
      have := hinv.count_le hN
      have hbf : ¬ (max_pages ≠ -1 ∧ max_pages ≤ (c.pages_crawled_count : Int)) := by
        simpa [budgetReached] using hb
      push_neg at hbf
      have := hbf hN
      simp only
      push_cast
      omega
    · simp only
      rw [List.nodup_append]
      refine ⟨hinv.fetched_nodup, List.nodup_singleton u, ?_⟩
      intro x hx
      simp only [List.mem_singleton]
      intro hxu
      subst hxu
      exact humem (hinv.fetched_visited x hx)
    · intro x hx
      simp only [List.mem_append, List.mem_singleton] at hx
      rcases hx with hx | rfl
      · exact Finset.mem_insert_of_mem (hinv.fetched_visited x hx)
      · exact Finset.mem_insert_self _ _
    · intro x hx
      rcases Finset.mem_insert.mp hx with rfl | hx
      · simp
      · simp only [List.mem_append, List.mem_singleton]
        exact Or.inl (hinv.visited_fetched x hx)
    · have := hinv.counter
      simp only [inflight] at this ⊢
      simp [isFetching] at hcount
      omega
    · intro x hx
      exact hinv.queue_canon x (by rw [hq]; exact List.mem_cons_of_mem _ hx)
    · intro x hx
      rcases Finset.mem_insert.mp hx with rfl | hx
      · exact hinv.queue_canon x (by rw [hq]; exact List.mem_cons_self _ _)
      · exact hinv.visited_canon x hx
    · rcases hinv.seed_cov with h | h | h | h
      · exact Or.inl (Finset.mem_insert_of_mem h)
      · exact Or.inr (Or.inl h)
      · rw [hq] at h
        rcases List.mem_cons.mp h with rfl | h
        · exact Or.inl (Finset.mem_insert_self _ _)
        · exact Or.inr (Or.inr (Or.inl h))
      · exact Or.inr (Or.inr (Or.inr (budgetReached_mono _ _ h)))
    · intro v hv l hl hscope
      rcases Finset.mem_insert.mp hv with rfl | hv
      · refine Or.inl ⟨j, ?_⟩
        rw [List.getElem?_set_eq_of_lt _ hjlt]
      · rcases hinv.link_cov v hv l hl hscope with h | h | h | h | h
        · rcases h with ⟨i, hi⟩
          have hij : j ≠ i := by
            intro hji
            subst hji
            rw [hwj] at hi
            cases hi
          exact Or.inl ⟨i, by rw [List.getElem?_set_ne hij]; exact hi⟩
        · exact Or.inr (Or.inl (budgetReached_mono _ _ h))
        · exact Or.inr (Or.inr (Or.inl (Finset.mem_insert_of_mem h)))
        · exact Or.inr (Or.inr (Or.inr (Or.inl h)))
        · rw [hq] at h
          rcases List.mem_cons.mp h with rfl | h
          · exact Or.inr (Or.inr (Or.inl (Finset.mem_insert_self _ _)))
          · exact Or.inr (Or.inr (Or.inr (Or.inr h)))
  | fetch_raises j u hwj hf =>
    have hjlt : j < c.workers.length := getElem?_some_lt _ _ _ hwj
    have hcount := countP_set_of_get isFetching c.workers j
      (WState.fetching u) WState.dead hwj
    refine ⟨hinv.queue_scope, hinv.visited_scope, hinv.js_scope, ?_,
      hinv.visited_not_js, hinv.js_ends, hinv.disj, hinv.count_card,
      hinv.count_le, hinv.fetched_nodup, hinv.fetched_visited,
      hinv.visited_fetched, ?_, hinv.queue_canon, hinv.visited_canon, ?_, ?_⟩
    · intro i v hw
      by_cases hij : j = i
      · subst hij
        rw [List.getElem?_set_eq_of_lt _ hjlt] at hw
        cases hw
      · rw [List.getElem?_set_ne hij] at hw
        exact hinv.fetching_visited i v hw
    · have := hinv.counter
      simp only [inflight] at this ⊢
      simp [isFetching] at hcount
      omega
    · rcases hinv.seed_cov with h | h | h | h
      · exact Or.inl h
      · exact Or.inr (Or.inl h)
      · exact Or.inr (Or.inr (Or.inl h))
      · exact Or.inr (Or.inr (Or.inr h))
    · intro v hv l hl hscope
      rcases hinv.link_cov v hv l hl hscope with h | h | h | h | h
      · rcases h with ⟨i, hi⟩
        by_cases hij : j = i
        · subst hij
          rw [hwj] at hi
          have huv : u = v := by simpa using hi
          rw [← huv] at hl
          have hempty : effectiveLinks web u = ∅ := by
            simp [effectiveLinks, hf]
          rw [hempty] at hl
          simp at hl
        · exact Or.inl ⟨i, by rw [List.getElem?_set_ne hij]; exact hi⟩
      · exact Or.inr (Or.inl h)
      · exact Or.inr (Or.inr (Or.inl h))
      · exact Or.inr (Or.inr (Or.inr (Or.inl h)))
      · exact Or.inr (Or.inr (Or.inr (Or.inr h)))
  | fetch_done_budget j u hwj hf hb =>
    have hjlt : j < c.workers.length := getElem?_some_lt _ _ _ hwj
    have hcount := countP_set_of_get isFetching c.workers j
      (WState.fetching u) WState.idle hwj
    refine ⟨hinv.queue_scope, hinv.visited_scope, hinv.js_scope, ?_,
      hinv.visited_not_js, hinv.js_ends, hinv.disj, hinv.count_card,
      hinv.count_le, hinv.fetched_nodup, hinv.fetched_visited,
      hinv.visited_fetched, ?_, hinv.queue_canon, hinv.visited_canon, ?_, ?_⟩
    · intro i v hw
      by_cases hij : j = i
      · subst hij
        rw [List.getElem?_set_eq_of_lt _ hjlt] at hw
        cases hw
      · rw [List.getElem?_set_ne hij] at hw
        exact hinv.fetching_visited i v hw
    · have := hinv.counter
      simp only [inflight] at this ⊢
      simp [isFetching] at hcount
      omega
    · exact Or.inr (Or.inr (Or.inr hb))
    · intro v hv l hl hscope
      exact Or.inr (Or.inl hb)
  | fetch_done_submit j u ls hwj hf hb hnodup hsub hcomplete =>
    have hjlt : j < c.workers.length := getElem?_some_lt _ _ _ hwj
    have hcount := countP_set_of_get isFetching c.workers j
      (WState.fetching u) WState.idle hwj
    have hlmem : ∀ l ∈ ls, l ∈ effectiveLinks web u ∧
        eligibleChild c.visited c.js_links base_netloc l = true := hsub
    refine ⟨?_, hinv.visited_scope, hinv.js_scope, ?_,
      hinv.visited_not_js, hinv.js_ends, hinv.disj, hinv.count_card,
      hinv.count_le, hinv.fetched_nodup, hinv.fetched_visited,
      hinv.visited_fetched, ?_, ?_, hinv.visited_canon, ?_, ?_⟩
    · intro x hx
      simp only [List.mem_append] at hx
      rcases hx with hx | hx
      · exact hinv.queue_scope x hx
      · exact ((eligibleChild_iff _ _ _ _).mp (hlmem x hx).2).2.2
    · intro i v hw
      by_cases hij : j = i
      · subst hij
        rw [List.getElem?_set_eq_of_lt _ hjlt] at hw
        cases hw
      · rw [List.getElem?_set_ne hij] at hw
        exact hinv.fetching_visited i v hw
    · have := hinv.counter
      have hlen : (c.queue ++ ls).length = c.queue.length + ls.length := by
        simp
      simp only [inflight] at this ⊢
      simp [isFetching] at hcount
      omega
    · intro x hx
      simp only [List.mem_append] at hx
      rcases hx with hx | hx
      · exact hinv.queue_canon x hx
      · exact Or.inr (effectiveLinks_canon web u x (hlmem x hx).1)
    · rcases hinv.seed_cov with h | h | h | h
      · exact Or.inl h
      · exact Or.inr (Or.inl h)
      · exact Or.inr (Or.inr (Or.inl (by simp only [List.mem_append]; exact Or.inl h)))
      · exact Or.inr (Or.inr (Or.inr h))
    · intro v hv l hl hscope
      by_cases hvu : v = u
      · subst hvu
        by_cases hel : eligibleChild c.visited c.js_links base_netloc l = true
        · refine Or.inr (Or.inr (Or.inr (Or.inr ?_)))
          simp only [List.mem_append]
          exact Or.inr (hcomplete l hl hel)
        · rw [eligibleChild_iff] at hel
          push_neg at hel
          by_cases hlv : l ∈ c.visited
          · exact Or.inr (Or.inr (Or.inl hlv))
          · by_cases hljs : l ∈ c.js_links
            · exact Or.inr (Or.inr (Or.inr (Or.inl hljs)))
            · exact absurd (hel hlv hljs) (by simp [hscope])
      · rcases hinv.link_cov v hv l hl hscope with h | h | h | h | h
        · rcases h with ⟨i, hi⟩
          have hij : j ≠ i := by
            intro hji
            subst hji
            rw [hwj] at hi
            simp only [Option.some.injEq, WState.fetching.injEq] at hi
            exact hvu hi.symm
          exact Or.inl ⟨i, by rw [List.getElem?_set_ne hij]; exact hi⟩
        · exact Or.inr (Or.inl h)
        · exact Or.inr (Or.inr (Or.inl h))
        · exact Or.inr (Or.inr (Or.inr (Or.inl h)))
        · exact Or.inr (Or.inr (Or.inr (Or.inr
            (by simp only [List.mem_append]; exact Or.inl h))))

theorem crawlInv_reaches (web : String → FetchOutcome) (start_url : String)
    (max_pages : Int) (W : Nat) {c : Cfg}
    (h : Reaches web (netlocStr start_url) max_pages (initCfg start_url W) c) :
    CrawlInv web (netlocStr start_url) max_pages start_url c :=
  reaches_inv _ (fun a b ha hs => crawlInv_step _ _ _ _ a b ha hs) h
    (crawlInv_init _ _ _ _ _ (by simp [matchsubdomain, strEndsWith_self]))

/-! ## Claim C6: scope containment -/

/-- C6.  In every run configuration reachable from the seeded pool, every
URL in the frontier queue and every URL in `visited` has a host that
ends (plain string suffix) with the base host, the start URL's host;
`matchsubdomain` is definitionally that plain `endswith`, so true
subdomains and unrelated hosts sharing the trailing characters are both
in scope. -/
theorem claim6_scope (web : String → FetchOutcome) (start_url : String)
    (max_pages : Int) (W : Nat) (c : Cfg)
    (h : Reaches web (netlocStr start_url) max_pages (initCfg start_url W) c) :
    (∀ u ∈ c.queue, strEndsWith (netlocStr u) (netlocStr start_url) = true) ∧
    (∀ u ∈ c.visited, strEndsWith (netlocStr u) (netlocStr start_url) = true) ∧
    (∀ b l : String, matchsubdomain b l = strEndsWith l b) ∧
    matchsubdomain "example.com" "api.example.com" = true ∧
    matchsubdomain "example.com" "evil-example.com" = true := by
  have hinv := crawlInv_reaches web start_url max_pages W h
  exact ⟨hinv.queue_scope, hinv.visited_scope, fun _ _ => rfl,
    by decide, by decide⟩

/-! ## Claim C5 (amended part): dedup by exact URL string -/

/-- C5 (amended).  In every reachable configuration the fetch log has no
duplicate URL strings (the pipeline runs at most once per exact URL
string), the fetched URLs are exactly the visited ones, and every
fetched URL other than the seed is in canonical form — so per canonical
URL the pipeline runs at most once for discovered links, the seed being
the only possible exception. -/
theorem claim5_amended (web : String → FetchOutcome) (start_url : String)
    (max_pages : Int) (W : Nat) (c : Cfg)
    (h : Reaches web (netlocStr start_url) max_pages (initCfg start_url W) c) :
    c.fetched.Nodup ∧
    (∀ u ∈ c.fetched, u ∈ c.visited) ∧
    (∀ u ∈ c.visited, u ∈ c.fetched) ∧
    (∀ u ∈ c.fetched, u ≠ start_url → canonicalStr u = u) := by
  have hinv := crawlInv_reaches web start_url max_pages W h
  refine ⟨hinv.fetched_nodup, hinv.fetched_visited, hinv.visited_fetched, ?_⟩
  intro u hu hne
  rcases hinv.visited_canon u (hinv.fetched_visited u hu) with h | h
  · exact absurd h hne
  · exact h

/-! ## Claim C7 (amended part): script-resource classification -/

/-- C7 (amended).  A dequeued in-scope URL whose string ends in `.js` is
recorded in `scriptResources` provided it is not already tracked and the
budget is not exhausted at that moment (any step either classifies it or
leaves it at the head of the queue); `js_links` only ever holds
`.js`-suffixed URLs, is disjoint from `visited` at every point, and no
fetched URL is ever in `js_links`. -/
theorem claim7_amended (web : String → FetchOutcome) (start_url : String)
    (max_pages : Int) (W : Nat) (c : Cfg)
    (h : Reaches web (netlocStr start_url) max_pages (initCfg start_url W) c) :
    (∀ (c' : Cfg) (u : String) (rest : List String), c.queue = u :: rest →
      u ∉ c.visited → u ∉ c.js_links →
      budgetReached max_pages c.pages_crawled_count = false →
      strEndsWith u ".js" = true →
      Step web (netlocStr start_url) max_pages c c' →
      (u ∈ c'.js_links ∨ ∃ rest2, c'.queue = u :: rest2)) ∧
    (∀ u ∈ c.js_links, strEndsWith u ".js" = true) ∧
    (∀ u ∈ c.visited, u ∉ c.js_links) ∧
    (∀ u, strEndsWith u ".js" = true → u ∉ c.visited) ∧
    (∀ u ∈ c.fetched, u ∉ c.js_links) := by
  have hinv := crawlInv_reaches web start_url max_pages W h
  refine ⟨?_, hinv.js_ends, hinv.disj, ?_, ?_⟩
  · intro c' u rest hq hnv hnj hb hjs hstp
    cases hstp with
    | dequeue_dedup j v rest2 hq2 hw hmem =>
      rw [hq] at hq2
      cases hq2
      exact absurd hmem (by simp [hnv, hnj])
    | dequeue_budget j v rest2 hq2 hw hmem hb2 =>
      rw [hq] at hq2
      cases hq2
      rw [hb] at hb2
      cases hb2
    | dequeue_scope j v rest2 hq2 hw hmem hb2 hsc =>
      rw [hq] at hq2
      cases hq2
      have := hinv.queue_scope u (by rw [hq]; exact List.mem_cons_self _ _)
      rw [this] at hsc
      cases hsc
    | dequeue_js j v rest2 hq2 hw hmem hb2 hsc hjs2 =>
      rw [hq] at hq2
      cases hq2
      exact Or.inl (Finset.mem_insert_self _ _)
    | dequeue_admit j v rest2 hq2 hw hmem hb2 hsc hjs2 =>
      rw [hq] at hq2
      cases hq2
      rw [hjs] at hjs2
      cases hjs2
    | fetch_raises j v hw hf =>
      exact Or.inr ⟨rest, hq⟩
    | fetch_done_budget j v hw hf hb2 =>
      exact Or.inr ⟨rest, hq⟩
    | fetch_done_submit j v ls hw hf hb2 hnodup hsub hcomplete =>
      refine Or.inr ⟨rest ++ ls, ?_⟩
      simp only [hq, List.cons_append]
  · intro u hjs hu
    have := hinv.visited_not_js u hu
    rw [hjs] at this
    cases this
  · intro u hu
    exact hinv.disj u (hinv.fetched_visited u hu)

/-! ## Claim C2 (amended part): fetch failures kill the worker, nothing else -/

/-- C2 (amended).  A worker whose awaited fetch raises is terminated: the
`dead` state is absorbing (the coroutine never continues its loop), and
the step that kills a worker is exactly a raising fetch — it changes no
crawl state (queue, `visited`, `js_links`, counter) and still performs
its `task_done` (the `finally` clause), so the drain protocol is not
wedged by the failure itself. -/
theorem claim2_amended (web : String → FetchOutcome) (base_netloc : String)
    (max_pages : Int) (c c' : Cfg) (i : Nat) (u : String)
    (hstp : Step web base_netloc max_pages c c') :
    (c.workers[i]? = some WState.dead → c'.workers[i]? = some WState.dead) ∧
    (c.workers[i]? = some (WState.fetching u) →
      c'.workers[i]? = some WState.dead →
      web u = FetchOutcome.raises ∧ c'.queue = c.queue ∧
      c'.visited = c.visited ∧ c'.js_links = c.js_links ∧
      c'.pages_crawled_count = c.pages_crawled_count ∧
      c'.acks = c.acks + 1) := by
  constructor
  · intro hdead
    cases hstp with
    | dequeue_dedup j v rest hq hw hmem => exact hdead
    | dequeue_budget j v rest hq hw hmem hb => exact hdead
    | dequeue_scope j v rest hq hw hmem hb hsc => exact hdead
    | dequeue_js j v rest hq hw hmem hb hsc hjs => exact hdead
    | dequeue_admit j v rest hq hw hmem hb hsc hjs =>
      have hij : j ≠ i := by
        intro hji
        subst hji
        rw [hdead] at hw
        cases hw
      show (c.workers.set j (WState.fetching v))[i]? = some WState.dead
      rw [List.getElem?_set_ne hij]
      exact hdead
    | fetch_raises j v hw hf =>
      by_cases hij : j = i
      · subst hij
        rw [hdead] at hw
        cases hw
      · show (c.workers.set j WState.dead)[i]? = some WState.dead
        rw [List.getElem?_set_ne hij]
        exact hdead
    | fetch_done_budget j v hw hf hb =>
      have hij : j ≠ i := by
        intro hji
        subst hji
        rw [hdead] at hw
        cases hw
      show (c.workers.set j WState.idle)[i]? = some WState.dead
      rw [List.getElem?_set_ne hij]
      exact hdead
    | fetch_done_submit j v ls hw hf hb hnodup hsub hcomplete =>
      have hij : j ≠ i := by
        intro hji
        subst hji
        rw [hdead] at hw
        cases hw
      show (c.workers.set j WState.idle)[i]? = some WState.dead
      rw [List.getElem?_set_ne hij]
      exact hdead
  · intro hfet hdead
    cases hstp with
    | dequeue_dedup j v rest hq hw hmem =>
      rw [hfet] at hdead
      cases hdead
    | dequeue_budget j v rest hq hw hmem hb =>
      rw [hfet] at hdead
      cases hdead
    | dequeue_scope j v rest hq hw hmem hb hsc =>
      rw [hfet] at hdead
      cases hdead
    | dequeue_js j v rest hq hw hmem hb hsc hjs =>
      rw [hfet] at hdead
      cases hdead
    | dequeue_admit j v rest hq hw hmem hb hsc hjs =>
      by_cases hij : j = i
      · subst hij
        rw [hfet] at hw
        cases hw
      · have hd2 : (c.workers.set j (WState.fetching v))[i]? =
            some WState.dead := hdead
        rw [List.getElem?_set_ne hij, hfet] at hd2
        cases hd2
    | fetch_raises j v hw hf =>
      by_cases hij : j = i
      · subst hij
        rw [hfet] at hw
        simp only [Option.some.injEq, WState.fetching.injEq] at hw
        subst hw
        exact ⟨hf, rfl, rfl, rfl, rfl, rfl⟩
      · have hd2 : (c.workers.set j WState.dead)[i]? = some WState.dead :=
          hdead
        rw [List.getElem?_set_ne hij, hfet] at hd2
        cases hd2
    | fetch_done_budget j v hw hf hb =>
      by_cases hij : j = i
      · subst hij
        have hjlt : j < c.workers.length := getElem?_some_lt _ _ _ hw
        have hd2 : (c.workers.set j WState.idle)[j]? = some WState.dead :=
          hdead
        rw [List.getElem?_set_eq_of_lt _ hjlt] at hd2
        cases hd2
      · have hd2 : (c.workers.set j WState.idle)[i]? = some WState.dead :=
          hdead
        rw [List.getElem?_set_ne hij, hfet] at hd2
        cases hd2
    | fetch_done_submit j v ls hw hf hb hnodup hsub hcomplete =>
      by_cases hij : j = i
      · subst hij
        have hjlt : j < c.workers.length := getElem?_some_lt _ _ _ hw
        have hd2 : (c.workers.set j WState.idle)[j]? = some WState.dead :=
          hdead
        rw [List.getElem?_set_eq_of_lt _ hjlt] at hd2
        cases hd2
      · have hd2 : (c.workers.set j WState.idle)[i]? = some WState.dead :=
          hdead
        rw [List.getElem?_set_ne hij, hfet] at hd2
        cases hd2

/-! ## Claim C8 (amended part): acknowledgement accounting in `crawler.py` -/

/-- C8 (amended).  In `crawler.py`'s worker pool, every dequeued item is
acknowledged exactly once, in every branch (the `try/finally` around the
loop body): in every reachable configuration the number of `queue.put`
calls equals the acknowledgements plus the queued plus the in-flight
items, so once the queue is drained the outstanding-work counter
(`puts - acks`) is exactly zero.  (`main.py`'s worker violates the claim:
see the counterexample.) -/
theorem claim8_amended (web : String → FetchOutcome) (start_url : String)
    (max_pages : Int) (W : Nat) (c : Cfg)
    (h : Reaches web (netlocStr start_url) max_pages (initCfg start_url W) c) :
    c.puts = c.acks + c.queue.length + inflight c.workers ∧
    (Drained c → c.acks = c.puts) := by
  have hinv := crawlInv_reaches web start_url max_pages W h
  refine ⟨hinv.counter, ?_⟩
  intro hd
  have hz : inflight c.workers = 0 := by
    rw [inflight, List.countP_eq_zero]
    intro w hw
    rw [hd.2 w hw]
    simp
  rw [hinv.counter, hd.1, hz]
  simp

/-! ## Claim C10: the seed is submitted and recorded verbatim -/

/-- Either the seed has already been admitted into `visited`, or the
run has not yet processed anything. -/
theorem seed_progress (web : String → FetchOutcome) (start_url : String)
    (max_pages : Int) (W : Nat) (c : Cfg)
    (hjs : strEndsWith start_url ".js" = false)
    (hbud : max_pages = -1 ∨ 1 ≤ max_pages)
    (h : Reaches web (netlocStr start_url) max_pages (initCfg start_url W) c) :
    start_url ∈ c.visited ∨
      (c.queue = [start_url] ∧ c.pages_crawled_count = 0 ∧
       c.visited = ∅ ∧ c.js_links = ∅) := by
  have := reaches_inv
    (fun c => CrawlInv web (netlocStr start_url) max_pages start_url c ∧
      (start_url ∈ c.visited ∨
        (c.queue = [start_url] ∧ c.pages_crawled_count = 0 ∧
         c.visited = ∅ ∧ c.js_links = ∅)))
    (fun a b ha hs => by
      refine ⟨crawlInv_step _ _ _ _ a b ha.1 hs, ?_⟩
      rcases ha.2 with hv | ⟨hq0, hc0, hv0, hj0⟩
      · left
        cases hs with
        | dequeue_dedup j v rest hq hw hmem => exact hv
        | dequeue_budget j v rest hq hw hmem hb => exact hv
        | dequeue_scope j v rest hq hw hmem hb hsc => exact hv
        | dequeue_js j v rest hq hw hmem hb hsc hjs2 => exact hv
        | dequeue_admit j v rest hq hw hmem hb hsc hjs2 =>
          exact Finset.mem_insert_of_mem hv
        | fetch_raises j v hw hf => exact hv
        | fetch_done_budget j v hw hf hb => exact hv
        | fetch_done_submit j v ls hw hf hb hnodup hsub hcomplete => exact hv
      · cases hs with
        | dequeue_dedup j v rest hq hw hmem =>
          rw [hq0] at hq
          cases hq
          rw [hv0, hj0] at hmem
          simp at hmem
        | dequeue_budget j v rest hq hw hmem hb =>
          rw [hc0] at hb
          simp only [budgetReached, decide_eq_true_eq] at hb
          rcases hbud with rfl | hge
          · exact absurd rfl hb.1
          · have := hb.2
            push_cast at this
            omega
        | dequeue_scope j v rest hq hw hmem hb hsc =>
          rw [hq0] at hq
          cases hq
          rw [show matchsubdomain (netlocStr start_url)
            (netlocStr start_url) = true by
              simp [matchsubdomain, strEndsWith_self]] at hsc
          cases hsc
        | dequeue_js j v rest hq hw hmem hb hsc hjs2 =>
          rw [hq0] at hq
          cases hq
          rw [hjs] at hjs2
          cases hjs2
        | dequeue_admit j v rest hq hw hmem hb hsc hjs2 =>
          rw [hq0] at hq
          cases hq
          exact Or.inl (Finset.mem_insert_self _ _)
        | fetch_raises j v hw hf =>
          have := ha.1.fetching_visited j v hw
          rw [hv0] at this
          simp at this
        | fetch_done_budget j v hw hf hb =>
          have := ha.1.fetching_visited j v hw
          rw [hv0] at this
          simp at this
        | fetch_done_submit j v ls hw hf hb hnodup hsub hcomplete =>
          have := ha.1.fetching_visited j v hw
          rw [hv0] at this
          simp at this)
    h
    ⟨crawlInv_init _ _ _ _ _ (by simp [matchsubdomain, strEndsWith_self]),
      Or.inr ⟨rfl, rfl, rfl, rfl⟩⟩
  exact this.2

/-- C10.  The start URL is submitted to the frontier exactly as given
(the initial queue holds the verbatim string), and in every completed
run that can admit at least one page and whose seed is not classified as
a script resource, the seed appears verbatim in the final `visited`
set.  When the seed carries a query string or fragment, these are not
stripped: the seed's dedup identity differs from its canonical form,
while every other visited URL (all discovered via extraction) is in
canonical form. -/
theorem claim10_verbatim_seed (web : String → FetchOutcome)
    (start_url : String) (max_pages : Int) (W : Nat) (c : Cfg)
    (hqf : (parseUrl start_url).query ≠ none ∨ (parseUrl start_url).frag ≠ none)
    (hjs : strEndsWith start_url ".js" = false)
    (hbud : max_pages = -1 ∨ 1 ≤ max_pages)
    (hreach : Reaches web (netlocStr start_url) max_pages
      (initCfg start_url W) c)
    (hdrain : Drained c) :
    (initCfg start_url W).queue = [start_url] ∧
    start_url ∈ c.visited ∧
    canonicalStr start_url ≠ start_url ∧
    (∀ l ∈ c.visited, l ≠ start_url → canonicalStr l = l) := by
  have hinv := crawlInv_reaches web start_url max_pages W hreach
  rcases seed_progress web start_url max_pages W c hjs hbud hreach with h | h
  · refine ⟨rfl, h, canonicalStr_ne_of_query_or_frag _ hqf, ?_⟩
    intro l hl hne
    rcases hinv.visited_canon l hl with h2 | h2
    · exact absurd h2 hne
    · exact h2
  · rw [hdrain.1] at h
    cases h.1

/-! ## Claim C4: budget bounds -/

/-- C4 (amended).  For every completed run with a nonnegative page budget `N` and
`W ≥ 1` workers, the final crawl counter is at most `N + (W - 1)` (the
asyncio implementation is in fact exact: the classify-admit block is
atomic, so the counter never exceeds `N`), and at least
`min(N, reachablePages)`: for every finite set `S` of pages reachable
from the seed through in-scope non-script links of successfully fetched
markup, `min N |S| ≤ crawledCount`. -/
theorem claim4_budget (web : String → FetchOutcome) (start_url : String)
    (N : Int) (W : Nat) (c : Cfg)
    (hN : 0 ≤ N) (hW : 1 ≤ W)
    (hreach : Reaches web (netlocStr start_url) N (initCfg start_url W) c)
    (hdrain : Drained c) :
    (c.pages_crawled_count : Int) ≤ N + ((W : Int) - 1) ∧
    (∀ S : Finset String,
      (∀ u ∈ S, ReachablePage web (netlocStr start_url) start_url u) →
      min N (S.card : Int) ≤ (c.pages_crawled_count : Int)) := by
  have hinv := crawlInv_reaches web start_url N W hreach
  have hne : N ≠ -1 := by omega
  constructor
  · have hle := hinv.count_le hne
    rw [max_eq_left hN] at hle
    have hW' : (1 : Int) ≤ (W : Int) := by exact_mod_cast hW
    omega
  · intro S hS
    by_cases hb : budgetReached N c.pages_crawled_count = true
    · simp only [budgetReached, decide_eq_true_eq] at hb
      exact le_trans (min_le_left _ _) hb.2
    · have hbf : budgetReached N c.pages_crawled_count = false := by
        simpa using hb
      have hsub : ∀ u, ReachablePage web (netlocStr start_url) start_url u →
          u ∈ c.visited := by
        intro u hu
        induction hu with
        | start hjs =>
          rcases hinv.seed_cov with h | h | h | h
          · exact h
          · have := hinv.js_ends _ h
            rw [hjs] at this
            cases this
          · rw [hdrain.1] at h
            cases h
          · rw [hbf] at h
            cases h
        | child v l hv hl hs2 hjs2 ih =>
          rcases hinv.link_cov v ih l hl hs2 with h | h | h | h | h
          · rcases h with ⟨i, hi⟩
            have := hdrain.2 _ (List.getElem?_mem hi)
            simp [isFetching] at this
          · rw [hbf] at h
            cases h
          · exact h
          · have := hinv.js_ends _ h
            rw [hjs2] at this
            cases this
          · rw [hdrain.1] at h
            cases h
      have hsubS : S ⊆ c.visited := fun u hu => hsub u (hS u hu)
      have hcard : S.card ≤ c.pages_crawled_count := by
        rw [← hinv.count_card]
        exact Finset.card_le_card hsubS
      refine le_trans (min_le_right _ _) ?_
      exact_mod_cast hcard

/-! ## Claim C9: termination of the single-page crawl -/

theorem getElem?_append_len (pre : List WState) (w : WState)
    (rest : List WState) : (pre ++ w :: rest)[pre.length]? = some w := by
  induction pre with
  | nil => simp
  | cons x xs ih => simpa using ih

theorem set_append_len (pre : List WState) (w w' : WState)
    (rest : List WState) :
    (pre ++ w :: rest).set pre.length w' = pre ++ w' :: rest := by
  induction pre with
  | nil => rfl
  | cons x xs ih => simp [ih]

/-- The shutdown protocol retires an all-idle pool: one stop token per
worker, each consumed by one worker. -/
theorem stop_all (ws pre : List WState)
    (hws : ∀ w ∈ ws, w = WState.idle) :
    Relation.ReflTransGen StopStep
      (List.replicate ws.length (none : Option String), pre ++ ws)
      ([], pre ++ ws.map (fun _ => WState.stopped)) := by
  induction ws generalizing pre with
  | nil => simpa using Relation.ReflTransGen.refl
  | cons w rest ih =>
    have hw : w = WState.idle := hws w (List.mem_cons_self _ _)
    subst hw
    have step1 : StopStep
        (List.replicate (WState.idle :: rest).length (none : Option String),
          pre ++ WState.idle :: rest)
        (List.replicate rest.length (none : Option String),
          (pre ++ WState.idle :: rest).set pre.length WState.stopped) := by
      rw [show (WState.idle :: rest).length = rest.length + 1 by simp,
        List.replicate_succ]
      exact StopStep.consume _ _ pre.length (getElem?_append_len pre _ rest)
    rw [set_append_len] at step1
    have hrec := ih (pre ++ [WState.stopped])
      (fun w hw => hws w (List.mem_cons_of_mem _ hw))
    rw [List.append_assoc] at hrec
    simp only [List.singleton_append] at hrec
    refine Relation.ReflTransGen.head step1 ?_
    simpa using hrec

/-- The scenario invariant for a run whose seed page yields no in-scope
links: the queue and `visited` only ever hold the seed, no script
resource is recorded, and no worker ever dies. -/
theorem scenario_inv (web : String → FetchOutcome) (start_url : String)
    (W : Nat)
    (hjs : strEndsWith start_url ".js" = false)
    (hok : web start_url ≠ FetchOutcome.raises)
    (hnolinks : ∀ l ∈ effectiveLinks web start_url,
      matchsubdomain (netlocStr start_url) (netlocStr l) = false)
    (c : Cfg)
    (h : Reaches web (netlocStr start_url) (-1) (initCfg start_url W) c) :
    CrawlInv web (netlocStr start_url) (-1) start_url c ∧
    (∀ u ∈ c.queue, u = start_url) ∧
    (∀ u ∈ c.visited, u = start_url) ∧
    c.js_links = ∅ ∧
    (∀ w ∈ c.workers, w = WState.idle ∨ isFetching w = true) ∧
    c.workers.length = W := by
  refine reaches_inv
    (fun c => CrawlInv web (netlocStr start_url) (-1) start_url c ∧
      (∀ u ∈ c.queue, u = start_url) ∧
      (∀ u ∈ c.visited, u = start_url) ∧
      c.js_links = ∅ ∧
      (∀ w ∈ c.workers, w = WState.idle ∨ isFetching w = true) ∧
      c.workers.length = W) ?_ h
    ⟨crawlInv_init _ _ _ _ _ (by simp [matchsubdomain, strEndsWith_self]),
      by simp [initCfg], by simp [initCfg], by simp [initCfg],
      fun w hw => Or.inl (List.eq_of_mem_replicate hw),
      by simp [initCfg]⟩
  intro a b ha hs
  obtain ⟨hinv, hqa, hva, hja, hwa, hlen⟩ := ha
  refine ⟨crawlInv_step _ _ _ _ a b hinv hs, ?_, ?_, ?_, ?_, ?_⟩ <;>
    cases hs with
  | dequeue_dedup j v rest hq hw hmem =>
    first
      | exact fun u hu => hqa u (by rw [hq]; exact List.mem_cons_of_mem _ hu)
      | exact hva
      | exact hja
      | exact hwa
      | exact hlen
  | dequeue_budget j v rest hq hw hmem hb =>
    first
      | exact fun u hu => hqa u (by rw [hq]; exact List.mem_cons_of_mem _ hu)
      | exact hva
      | exact hja
      | exact hwa
      | exact hlen
  | dequeue_scope j v rest hq hw hmem hb hsc =>
    first
      | exact fun u hu => hqa u (by rw [hq]; exact List.mem_cons_of_mem _ hu)
      | exact hva
      | exact hja
      | exact hwa
      | exact hlen
  | dequeue_js j v rest hq hw hmem hb hsc hjs2 =>
    first
      | exact fun u hu => hqa u (by rw [hq]; exact List.mem_cons_of_mem _ hu)
      | exact hva
      | (exfalso
         have hv : v = start_url := hqa v (by rw [hq]; exact List.mem_cons_self _ _)
         rw [hv, hjs] at hjs2
         cases hjs2)
  | dequeue_admit j v rest hq hw hmem hb hsc hjs2 =>
    first
      | exact fun u hu => hqa u (by rw [hq]; exact List.mem_cons_of_mem _ hu)
      | (intro u hu
         rcases Finset.mem_insert.mp hu with rfl | hu
         · exact hqa u (by rw [hq]; exact List.mem_cons_self _ _)
         · exact hva u hu)
      | exact hja
      | (intro w hw2
         rcases List.mem_or_eq_of_mem_set hw2 with hw2 | rfl
         · exact hwa w hw2
         · exact Or.inr rfl)
      | (simp only [List.length_set]; exact hlen)
  | fetch_raises j v hw hf =>
    exact absurd hf (by
      have hv : v = start_url := hva v (hinv.fetching_visited j v hw)
      rw [hv]
      exact hok)
  | fetch_done_budget j v hw hf hb =>
    first
      | exact hqa
      | exact hva
      | exact hja
      | (intro w hw2
         rcases List.mem_or_eq_of_mem_set hw2 with hw2 | rfl
         · exact hwa w hw2
         · exact Or.inl rfl)
      | (simp only [List.length_set]; exact hlen)
  | fetch_done_submit j v ls hw hf hb hnodup hsub hcomplete =>
    have hv : v = start_url := hva v (hinv.fetching_visited j v hw)
    have hnil : ls = [] := by
      rw [List.eq_nil_iff_forall_not_mem]
      intro l hl
      obtain ⟨hlinks, hel⟩ := hsub l hl
      rw [hv] at hlinks
      have := ((eligibleChild_iff _ _ _ _).mp hel).2.2
      rw [hnolinks l hlinks] at this
      cases this
    subst hnil
    first
      | (intro u hu
         simp only [List.append_nil] at hu
         exact hqa u hu)
      | exact hva
      | exact hja
      | (intro w hw2
         rcases List.mem_or_eq_of_mem_set hw2 with hw2 | rfl
         · exact hwa w hw2
         · exact Or.inl rfl)
      | (simp only [List.length_set]; exact hlen)

/-- C9.  If the seed page fetch succeeds and the page yields no in-scope
links, a run with unbounded budget (`max_pages = -1`) and at least one
worker: (1) every drained configuration has `crawledCount = 1`, an empty
script-resource set, `visited = {seed}`, and an all-idle pool; (2) a
drained configuration is reachable; (3) no infinite execution exists —
the crawl terminates with no sleep/poll loop, the transition out of the
work phase being guarded solely by the drain condition; and (4) the
shutdown protocol then retires the pool with exactly one stop token per
worker. -/
theorem claim9_termination (web : String → FetchOutcome) (start_url : String)
    (W : Nat) (hW : 1 ≤ W)
    (hjs : strEndsWith start_url ".js" = false)
    (hok : web start_url ≠ FetchOutcome.raises)
    (hnolinks : ∀ l ∈ effectiveLinks web start_url,
      matchsubdomain (netlocStr start_url) (netlocStr l) = false) :
    (∀ c : Cfg,
      Reaches web (netlocStr start_url) (-1) (initCfg start_url W) c →
      Drained c →
      c.pages_crawled_count = 1 ∧ c.js_links = ∅ ∧
      c.visited = {start_url} ∧ c.workers = List.replicate W WState.idle) ∧
    (∃ c : Cfg,
      Reaches web (netlocStr start_url) (-1) (initCfg start_url W) c ∧
      Drained c) ∧
    (¬ ∃ f : Nat → Cfg, f 0 = initCfg start_url W ∧
      ∀ n, Step web (netlocStr start_url) (-1) (f n) (f (n + 1))) ∧
    Relation.ReflTransGen StopStep
      (List.replicate W (none : Option String), List.replicate W WState.idle)
      ([], List.replicate W WState.stopped) := by
  have hbud0 : ∀ k : Nat, budgetReached (-1) k = false := by
    intro k
    simp [budgetReached]
  refine ⟨?_, ?_, ?_, ?_⟩
  · intro c hreach hdrain
    obtain ⟨hinv, hqa, hva, hja, hwa, hlen⟩ :=
      scenario_inv web start_url W hjs hok hnolinks c hreach
    have hseed : start_url ∈ c.visited := by
      rcases hinv.seed_cov with h | h | h | h
      · exact h
      · rw [hja] at h
        cases h
      · rw [hdrain.1] at h
        cases h
      · rw [hbud0] at h
        cases h
    have hvis : c.visited = {start_url} := by
      apply Finset.ext
      intro x
      constructor
      · intro hx
        simp [hva x hx]
      · intro hx
        simp at hx
        rw [hx]
        exact hseed
    refine ⟨?_, hja, hvis, ?_⟩
    · rw [← hinv.count_card, hvis]
      simp
    · refine List.eq_replicate_iff.mpr ⟨hlen, ?_⟩
      intro w hw
      rcases hwa w hw with h | h
      · exact h
      · have := hdrain.2 w hw
        rw [this] at h
        cases h
  · obtain ⟨k, rfl⟩ : ∃ k, W = k + 1 := ⟨W - 1, by omega⟩
    have hw0 : (initCfg start_url (k + 1)).workers[0]? = some WState.idle := by
      simp [initCfg, List.replicate_succ]
    have step1 : Step web (netlocStr start_url) (-1) (initCfg start_url (k + 1))
        { initCfg start_url (k + 1) with
          queue := [],
          visited := insert start_url ∅,
          pages_crawled_count := 1,
          workers := (List.replicate (k + 1) WState.idle).set 0
            (WState.fetching start_url),
          fetched := [start_url],
          dequeued := [start_url] } := by
      have := @Step.dequeue_admit web (netlocStr start_url) (-1)
        (initCfg start_url (k + 1)) 0 start_url [] rfl hw0
        (by simp [initCfg]) (hbud0 0)
        (by simp [matchsubdomain, strEndsWith_self]) hjs
      simpa [initCfg] using this
    set c1 : Cfg :=
      { initCfg start_url (k + 1) with
        queue := [],
        visited := insert start_url ∅,
        pages_crawled_count := 1,
        workers := (List.replicate (k + 1) WState.idle).set 0
          (WState.fetching start_url),
        fetched := [start_url],
        dequeued := [start_url] } with hc1
    have hw1 : c1.workers[0]? = some (WState.fetching start_url) := by
      rw [hc1]
      simp [initCfg, List.replicate_succ]
    have step2 : Step web (netlocStr start_url) (-1) c1
        { c1 with
          queue := c1.queue ++ [],
          workers := c1.workers.set 0 WState.idle,
          puts := c1.puts + List.length ([] : List String),
          acks := c1.acks + 1 } := by
      refine Step.fetch_done_submit c1 0 start_url [] hw1 hok (hbud0 1)
        List.nodup_nil (by simp) ?_
      intro l hl hel
      have := ((eligibleChild_iff _ _ _ _).mp hel).2.2
      rw [hnolinks l hl] at this
      cases this
    refine ⟨_, Relation.ReflTransGen.head step1
      (Relation.ReflTransGen.head step2 Relation.ReflTransGen.refl), ?_⟩
    have hworkers : ((List.replicate (k + 1) WState.idle).set 0
        (WState.fetching start_url)).set 0 WState.idle =
        List.replicate (k + 1) WState.idle := by
      rw [List.set_set]
      simp [List.replicate_succ]
    constructor
    · simp [hc1, initCfg]
    · intro w hw
      simp only [hc1, initCfg] at hw
      rw [hworkers] at hw
      rw [List.eq_of_mem_replicate hw]
      rfl
  · rintro ⟨f, hf0, hfs⟩
    have hreach : ∀ n, Reaches web (netlocStr start_url) (-1)
        (initCfg start_url W) (f n) := by
      intro n
      induction n with
      | zero =>
        rw [hf0]
        exact Relation.ReflTransGen.refl
      | succ m ih => exact Relation.ReflTransGen.tail ih (hfs m)
    have hdec : ∀ n,
        2 * (f (n + 1)).queue.length + inflight (f (n + 1)).workers <
        2 * (f n).queue.length + inflight (f n).workers := by
      intro n
      obtain ⟨hinv, hqa, hva, hja, hwa, hlen⟩ :=
        scenario_inv web start_url W hjs hok hnolinks (f n) (hreach n)
      have hstep := hfs n
      obtain ⟨c', hc'⟩ : ∃ c', f (n + 1) = c' := ⟨_, rfl⟩
      rw [hc'] at hstep ⊢
      cases hstep with
      | dequeue_dedup j v rest hq hw hmem =>
        simp only [inflight]
        rw [hq]
        simp
      | dequeue_budget j v rest hq hw hmem hb =>
        simp only [inflight]
        rw [hq]
        simp
      | dequeue_scope j v rest hq hw hmem hb hsc =>
        simp only [inflight]
        rw [hq]
        simp
      | dequeue_js j v rest hq hw hmem hb hsc hjs2 =>
        simp only [inflight]
        rw [hq]
        simp
      | dequeue_admit j v rest hq hw hmem hb hsc hjs2 =>
        have hcount := countP_set_of_get isFetching (f n).workers j
          WState.idle (WState.fetching v) hw
        simp [isFetching] at hcount
        simp only [inflight]
        rw [hq]
        simp only [List.length_cons]
        omega
      | fetch_raises j v hw hf =>
        exact absurd hf (by
          have hv : v = start_url := hva v (hinv.fetching_visited j v hw)
          rw [hv]
          exact hok)
      | fetch_done_budget j v hw hf hb =>
        have hcount := countP_set_of_get isFetching (f n).workers j
          (WState.fetching v) WState.idle hw
        simp [isFetching] at hcount
        simp only [inflight]
        omega
      | fetch_done_submit j v ls hw hf hb hnodup hsub hcomplete =>
        have hv : v = start_url := hva v (hinv.fetching_visited j v hw)
        have hnil : ls = [] := by
          rw [List.eq_nil_iff_forall_not_mem]
          intro l hl
          obtain ⟨hlinks, hel⟩ := hsub l hl
          rw [hv] at hlinks
          have := ((eligibleChild_iff _ _ _ _).mp hel).2.2
          rw [hnolinks l hlinks] at this
          cases this
        subst hnil
        have hcount := countP_set_of_get isFetching (f n).workers j
          (WState.fetching v) WState.idle hw
        simp [isFetching] at hcount
        simp only [inflight]
        simp only [List.append_nil]
        omega
    have hsum : ∀ n,
        2 * (f n).queue.length + inflight (f n).workers + n ≤
        2 * (f 0).queue.length + inflight (f 0).workers := by
      intro n
      induction n with
      | zero => omega
      | succ m ih =>
        have := hdec m
        omega
    have := hsum (2 * (f 0).queue.length + inflight (f 0).workers + 1)
    omega
  · have := stop_all (List.replicate W WState.idle) []
      (fun w hw => List.eq_of_mem_replicate hw)
    simpa using this

/-! ## Concrete runs of the transition system -/

theorem stepRaise1 : Step webAllRaise (netlocStr "https://z.com/a") (-1)
    (initCfg "https://z.com/a" 1) cfgRaiseMid :=
  Step.dequeue_admit _ 0 "https://z.com/a" [] rfl (by decide) (by decide)
    (by decide) (by decide) (by decide)

theorem stepRaise2 : Step webAllRaise (netlocStr "https://z.com/a") (-1)
    cfgRaiseMid cfgRaiseFinal :=
  Step.fetch_raises _ 0 "https://z.com/a" (by decide) rfl

theorem traceRaise : Reaches webAllRaise (netlocStr "https://z.com/a") (-1)
    (initCfg "https://z.com/a" 1) cfgRaiseFinal :=
  Relation.ReflTransGen.head stepRaise1
    (Relation.ReflTransGen.head stepRaise2 Relation.ReflTransGen.refl)

theorem traceQuery : Reaches webSeedQuery (netlocStr seedQ) (-1)
    (initCfg seedQ 1) cfgQuery4 := by
  have s1 : Step webSeedQuery (netlocStr seedQ) (-1) (initCfg seedQ 1)
      cfgQuery1 :=
    Step.dequeue_admit _ 0 seedQ [] rfl (by decide) (by decide)
      (by decide) (by decide) (by decide)
  have s2 : Step webSeedQuery (netlocStr seedQ) (-1) cfgQuery1 cfgQuery2 :=
    Step.fetch_done_submit _ 0 seedQ [pageQ] (by decide) (by decide)
      (by decide) (by decide) (by decide) (by decide)
  have s3 : Step webSeedQuery (netlocStr seedQ) (-1) cfgQuery2 cfgQuery3 :=
    Step.dequeue_admit _ 0 pageQ [] rfl (by decide) (by decide)
      (by decide) (by decide) (by decide)
  have s4 : Step webSeedQuery (netlocStr seedQ) (-1) cfgQuery3 cfgQuery4 :=
    Step.fetch_done_submit _ 0 pageQ [] (by decide) (by decide)
      (by decide) (by decide) (by decide) (by decide)
  exact Relation.ReflTransGen.head s1 (Relation.ReflTransGen.head s2
    (Relation.ReflTransGen.head s3
      (Relation.ReflTransGen.head s4 Relation.ReflTransGen.refl)))

theorem traceJsBudget : Reaches webBudgetJs (netlocStr seedX) 2
    (initCfg seedX 1) cfgJs5 := by
  have s1 : Step webBudgetJs (netlocStr seedX) 2 (initCfg seedX 1) cfgJs1 :=
    Step.dequeue_admit _ 0 seedX [] rfl (by decide) (by decide)
      (by decide) (by decide) (by decide)
  have s2 : Step webBudgetJs (netlocStr seedX) 2 cfgJs1 cfgJs2 :=
    Step.fetch_done_submit _ 0 seedX [pageB, pageJ] (by decide) (by decide)
      (by decide) (by decide) (by decide) (by decide)
  have s3 : Step webBudgetJs (netlocStr seedX) 2 cfgJs2 cfgJs3 :=
    Step.dequeue_admit _ 0 pageB [pageJ] rfl (by decide) (by decide)
      (by decide) (by decide) (by decide)
  have s4 : Step webBudgetJs (netlocStr seedX) 2 cfgJs3 cfgJs4 :=
    Step.fetch_done_budget _ 0 pageB (by decide) (by decide) (by decide)
  have s5 : Step webBudgetJs (netlocStr seedX) 2 cfgJs4 cfgJs5 :=
    Step.dequeue_budget _ 0 pageJ [] rfl (by decide) (by decide) (by decide)
  exact Relation.ReflTransGen.head s1 (Relation.ReflTransGen.head s2
    (Relation.ReflTransGen.head s3 (Relation.ReflTransGen.head s4
      (Relation.ReflTransGen.head s5 Relation.ReflTransGen.refl))))

theorem traceBudget : Reaches webAllEmpty (netlocStr seedW) 1
    (initCfg seedW 1) cfgBudget2 := by
  have s1 : Step webAllEmpty (netlocStr seedW) 1 (initCfg seedW 1)
      cfgBudget1 :=
    Step.dequeue_admit _ 0 seedW [] rfl (by decide) (by decide)
      (by decide) (by decide) (by decide)
  have s2 : Step webAllEmpty (netlocStr seedW) 1 cfgBudget1 cfgBudget2 :=
    Step.fetch_done_budget _ 0 seedW (by decide) (by decide) (by decide)
  exact Relation.ReflTransGen.head s1
    (Relation.ReflTransGen.head s2 Relation.ReflTransGen.refl)

theorem traceQSeed : Reaches webAllEmpty (netlocStr seedP) (-1)
    (initCfg seedP 1) cfgQSeed2 := by
  have s1 : Step webAllEmpty (netlocStr seedP) (-1) (initCfg seedP 1)
      cfgQSeed1 :=
    Step.dequeue_admit _ 0 seedP [] rfl (by decide) (by decide)
      (by decide) (by decide) (by decide)
  have s2 : Step webAllEmpty (netlocStr seedP) (-1) cfgQSeed1 cfgQSeed2 :=
    Step.fetch_done_submit _ 0 seedP [] (by decide) (by decide)
      (by decide) (by decide) (by decide) (by decide)
  exact Relation.ReflTransGen.head s1
    (Relation.ReflTransGen.head s2 Relation.ReflTransGen.refl)

/-! ## Counterexample runs and witnesses -/

/-- C2 (counterexample).  On a site whose fetch raises after retries, the
one-worker pool reaches a drained configuration in which the worker is
`dead`: the exception propagated out of the worker's loop and the worker
did not continue — refuting the claim that no failure ever escapes a
worker (the crawl still ends because the item was acknowledged by the
`finally` clause). -/
theorem claim2_counterexample :
    Reaches webAllRaise (netlocStr "https://z.com/a") (-1)
      (initCfg "https://z.com/a" 1) cfgRaiseFinal ∧
    Drained cfgRaiseFinal ∧
    cfgRaiseFinal.workers[0]? = some WState.dead ∧
    cfgRaiseFinal.acks = cfgRaiseFinal.puts :=
  ⟨traceRaise, ⟨rfl, by decide⟩, rfl, rfl⟩

/-- C2 witness: the amended theorem applied to the raising fetch step of
the concrete run. -/
theorem claim2_witness :
    (cfgRaiseMid.workers[0]? = some WState.dead →
      cfgRaiseFinal.workers[0]? = some WState.dead) ∧
    (cfgRaiseMid.workers[0]? = some (WState.fetching "https://z.com/a") →
      cfgRaiseFinal.workers[0]? = some WState.dead →
      webAllRaise "https://z.com/a" = FetchOutcome.raises ∧
      cfgRaiseFinal.queue = cfgRaiseMid.queue ∧
      cfgRaiseFinal.visited = cfgRaiseMid.visited ∧
      cfgRaiseFinal.js_links = cfgRaiseMid.js_links ∧
      cfgRaiseFinal.pages_crawled_count = cfgRaiseMid.pages_crawled_count ∧
      cfgRaiseFinal.acks = cfgRaiseMid.acks + 1) :=
  claim2_amended webAllRaise (netlocStr "https://z.com/a") (-1)
    cfgRaiseMid cfgRaiseFinal 0 "https://z.com/a" stepRaise2

/-- C5 (counterexample).  With seed `https://site.example.com/page?id=1`
(whose page links to `/page`), a completed run fetches both the verbatim
seed and its canonical form: the fetch/extract pipeline runs twice for
the canonical URL `https://site.example.com/page`, refuting "at most
once per canonical URL". -/
theorem claim5_counterexample :
    Reaches webSeedQuery (netlocStr seedQ) (-1) (initCfg seedQ 1) cfgQuery4 ∧
    Drained cfgQuery4 ∧
    cfgQuery4.fetched = [seedQ, pageQ] ∧
    canonicalStr seedQ = canonicalStr pageQ ∧ seedQ ≠ pageQ ∧
    ¬ (cfgQuery4.fetched.map canonicalStr).Nodup :=
  ⟨traceQuery, ⟨rfl, by decide⟩, rfl, by decide, by decide, by decide⟩

/-- C5 witness: the amended theorem applied to the completed one-page
budget run. -/
theorem claim5_witness :
    cfgBudget2.fetched.Nodup ∧
    (∀ u ∈ cfgBudget2.fetched, u ∈ cfgBudget2.visited) ∧
    (∀ u ∈ cfgBudget2.fetched, u ≠ seedW → canonicalStr u = u) :=
  ⟨(claim5_amended webAllEmpty seedW 1 1 cfgBudget2 traceBudget).1,
   (claim5_amended webAllEmpty seedW 1 1 cfgBudget2 traceBudget).2.1,
   (claim5_amended webAllEmpty seedW 1 1 cfgBudget2 traceBudget).2.2.2⟩

/-- C7 (counterexample).  With budget 2, the in-scope URL
`https://x.com/c.js` (canonical path ending in `.js`) is dequeued after
the budget is exhausted: the run completes with it recorded nowhere —
`scriptResources` is empty — refuting "always placed in
`scriptResources` regardless of discovery order". -/
theorem claim7_counterexample :
    Reaches webBudgetJs (netlocStr seedX) 2 (initCfg seedX 1) cfgJs5 ∧
    Drained cfgJs5 ∧
    pageJ ∈ cfgJs5.dequeued ∧
    matchsubdomain (netlocStr seedX) (netlocStr pageJ) = true ∧
    strEndsWith (String.mk (parseUrl pageJ).path) ".js" = true ∧
    cfgJs5.js_links = ∅ :=
  ⟨traceJsBudget, ⟨rfl, by decide⟩, by decide, by decide, by decide, rfl⟩

/-- C7 witness: the amended theorem applied to the completed budget
run. -/
theorem claim7_witness :
    (∀ u ∈ cfgBudget2.js_links, strEndsWith u ".js" = true) ∧
    (∀ u ∈ cfgBudget2.visited, u ∉ cfgBudget2.js_links) ∧
    (∀ u ∈ cfgBudget2.fetched, u ∉ cfgBudget2.js_links) :=
  ⟨(claim7_amended webAllEmpty seedW 1 1 cfgBudget2 traceBudget).2.1,
   (claim7_amended webAllEmpty seedW 1 1 cfgBudget2 traceBudget).2.2.1,
   (claim7_amended webAllEmpty seedW 1 1 cfgBudget2 traceBudget).2.2.2.2⟩

/-- C4 (counterexample).  The claim quantifies over every budget
`N != -1`; with the degenerate budget `N = -2` and one worker, a run
completes with `crawledCount = 0` (the budget check rejects everything),
and `0 <= N + (W - 1) = -2` is false — the claimed upper bound fails.
The amended claim restricts to nonnegative budgets. -/
theorem claim4_counterexample :
    Reaches webAllEmpty (netlocStr seedW) (-2) (initCfg seedW 1)
      cfgNegBudget ∧
    Drained cfgNegBudget ∧ (-2 : Int) ≠ -1 ∧
    ¬ ((cfgNegBudget.pages_crawled_count : Int) ≤ -2 + ((1 : Int) - 1)) := by
  have s1 : Step webAllEmpty (netlocStr seedW) (-2) (initCfg seedW 1)
      cfgNegBudget :=
    Step.dequeue_budget _ 0 seedW [] rfl (by decide) (by decide) (by decide)
  exact ⟨Relation.ReflTransGen.head s1 Relation.ReflTransGen.refl,
    ⟨rfl, by decide⟩, by decide, by decide⟩

/-- C4 witness: the bounds applied to a completed run with budget 1 and
one worker on a one-page site. -/
theorem claim4_witness :
    ((cfgBudget2.pages_crawled_count : Int) ≤ 1 + ((1 : Int) - 1)) ∧
    min (1 : Int) ((({seedW} : Finset String).card : Int)) ≤
      (cfgBudget2.pages_crawled_count : Int) := by
  have h := claim4_budget webAllEmpty seedW 1 1 cfgBudget2 (by norm_num)
    le_rfl traceBudget ⟨rfl, by decide⟩
  refine ⟨h.1, h.2 {seedW} ?_⟩
  intro u hu
  simp only [Finset.mem_singleton] at hu
  subst hu
  exact ReachablePage.start (by decide)

/-- C6 witness: scope containment read off the completed budget run. -/
theorem claim6_witness :
    (∀ u ∈ cfgBudget2.visited,
      strEndsWith (netlocStr u) (netlocStr seedW) = true) ∧
    matchsubdomain "example.com" "evil-example.com" = true :=
  ⟨(claim6_scope webAllEmpty seedW 1 1 cfgBudget2 traceBudget).2.1,
   (claim6_scope webAllEmpty seedW 1 1 cfgBudget2 traceBudget).2.2.2.2⟩

/-- C8 witness: the acknowledgement accounting at the completed budget
run. -/
theorem claim8_witness :
    cfgBudget2.puts = cfgBudget2.acks + cfgBudget2.queue.length +
      inflight cfgBudget2.workers ∧
    (Drained cfgBudget2 → cfgBudget2.acks = cfgBudget2.puts) :=
  claim8_amended webAllEmpty seedW 1 1 cfgBudget2 traceBudget

/-- C9 witness: termination applied to a concrete one-page site with no
links, one worker, unbounded budget. -/
theorem claim9_witness :
    (∀ c : Cfg,
      Reaches webNoLinks (netlocStr "https://s.com/") (-1)
        (initCfg "https://s.com/" 1) c →
      Drained c →
      c.pages_crawled_count = 1 ∧ c.js_links = ∅ ∧
      c.visited = {"https://s.com/"} ∧
      c.workers = List.replicate 1 WState.idle) ∧
    (∃ c : Cfg,
      Reaches webNoLinks (netlocStr "https://s.com/") (-1)
        (initCfg "https://s.com/" 1) c ∧ Drained c) ∧
    (¬ ∃ f : Nat → Cfg, f 0 = initCfg "https://s.com/" 1 ∧
      ∀ n, Step webNoLinks (netlocStr "https://s.com/") (-1)
        (f n) (f (n + 1))) ∧
    Relation.ReflTransGen StopStep
      (List.replicate 1 (none : Option String),
        List.replicate 1 WState.idle)
      ([], List.replicate 1 WState.stopped) :=
  claim9_termination webNoLinks "https://s.com/" 1 le_rfl (by decide)
    (by decide) (by decide)

/-- C10 witness: a completed run whose seed carries a query string. -/
theorem claim10_witness :
    (initCfg seedP 1).queue = [seedP] ∧
    seedP ∈ cfgQSeed2.visited ∧
    canonicalStr seedP ≠ seedP ∧
    (∀ l ∈ cfgQSeed2.visited, l ≠ seedP → canonicalStr l = l) :=
  claim10_verbatim_seed webAllEmpty seedP (-1) 1 cfgQSeed2 (by decide)
    (by decide) (Or.inl rfl) traceQSeed ⟨rfl, by decide⟩

end WebCrawler
